import Mathlib

/-!
Verification development for the hierarchical typed configuration store
("Policy") and the PAF format-detection factory of this repository.

The Policy store itself is not present among the sources (only its test
driver Policy_1.cc is), so the store operations are modelled from the
specification text; the PAF factory recognizer is a direct shallow
embedding of PAFParserFactory.cc.

Policies live in an explicit heap so that the shared-subtree (aliasing)
semantics of SubPolicy handles, shallow copies and deep copies can be
stated and proved.  A Policy value is an address into the heap; each cell
holds an ordered association list from names to non-empty ordered value
sequences.
-/

set_option maxHeartbeats 1000000

/-- Modelled from the spec: the value tags of the tagged union stored in a
Policy (Bool, Int, Double, String, nested SubPolicy, external FileRef). -/
inductive Tag where
  | tBool
  | tInt
  | tDouble
  | tString
  | tSub
  | tFile
deriving DecidableEq, Repr

/-- Modelled from the spec: a single stored value.  Doubles are modelled
exactly by rationals; a SubPolicy value holds the heap address of the
shared nested store; a FileRef holds the external identifier string. -/
inductive Value where
  | vBool : Bool → Value
  | vInt : Int → Value
  | vDouble : ℚ → Value
  | vString : String → Value
  | vSub : Nat → Value
  | vFile : String → Value
deriving DecidableEq, Repr

/-- The tag of a value. -/
def Value.tag : Value → Tag
  | .vBool _ => .tBool
  | .vInt _ => .tInt
  | .vDouble _ => .tDouble
  | .vString _ => .tString
  | .vSub _ => .tSub
  | .vFile _ => .tFile

/-- Modelled from the spec: the error kinds of the store contract that the
claims mention (NameNotFound and TypeError). -/
inductive PolicyError where
  | nameNotFound
  | typeError
deriving DecidableEq, Repr

instance {ε α : Type} [DecidableEq ε] [DecidableEq α] : DecidableEq (Except ε α) := fun x y =>
  match x, y with
  | .ok a, .ok b =>
    if h : a = b then isTrue (h ▸ rfl) else isFalse (fun hc => h (Except.ok.inj hc))
  | .error e, .error g =>
    if h : e = g then isTrue (h ▸ rfl) else isFalse (fun hc => h (Except.error.inj hc))
  | .ok _, .error _ => isFalse (fun hc => Except.noConfusion hc)
  | .error _, .ok _ => isFalse (fun hc => Except.noConfusion hc)

/-- The contents of one Policy object: an ordered mapping from top-level
names to ordered value sequences. -/
abbrev PolicyData := List (String × List Value)

/-- First-match association lookup. -/
def assocFind {α β : Type} [DecidableEq α] (k : α) : List (α × β) → Option β
  | [] => none
  | (a, b) :: t => if a = k then some b else assocFind k t

/-- Replace the first binding of a key, appending a new binding when the
key is absent; all other bindings are kept in place and in order. -/
def assocSet {α β : Type} [DecidableEq α] (k : α) (v : β) : List (α × β) → List (α × β)
  | [] => [(k, v)]
  | (a, b) :: t => if a = k then (k, v) :: t else (a, b) :: assocSet k v t

/-- The heap of Policy objects: an allocation counter and the allocated
cells.  Fresh cells are always allocated at the counter. -/
structure Heap where
  next : Nat
  cells : List (Nat × PolicyData)
deriving DecidableEq, Repr

/-- Look up the data of the Policy object at an address. -/
def Heap.get (H : Heap) (a : Nat) : Option PolicyData := assocFind a H.cells

/-- Overwrite the data of the Policy object at an address. -/
def Heap.put (H : Heap) (a : Nat) (d : PolicyData) : Heap :=
  ⟨H.next, assocSet a d H.cells⟩

/-- Allocate a fresh Policy object and return its address. -/
def Heap.alloc (H : Heap) (d : PolicyData) : Heap × Nat :=
  (⟨H.next + 1, (H.next, d) :: H.cells⟩, H.next)

/-- Every allocated address lies below the allocation counter. -/
def Heap.wf (H : Heap) : Prop := ∀ p ∈ H.cells, p.1 < H.next

/-- Decidable test that a value is not a sub-policy reference into the
region at or above a bound. -/
def Value.subLt (v : Value) (k : Nat) : Bool :=
  match v with
  | .vSub c => decide (c < k)
  | _ => true

/-- Every SubPolicy reference stored anywhere in the heap points at an
address below the allocation counter. -/
def Heap.closed (H : Heap) : Prop :=
  ∀ p ∈ H.cells, ∀ e ∈ p.2, ∀ v ∈ e.2, v.subLt H.next = true

instance (H : Heap) : Decidable H.wf := by
  unfold Heap.wf; infer_instance

instance (H : Heap) : Decidable H.closed := by
  unfold Heap.closed; infer_instance

/-- The sequence element the scalar accessors read: the most recently
appended element, the back of the sequence. -/
def lastVal (vs : List Value) : Option Value := vs.getLast?

/-- Modelled from the spec: dotted-path resolution of every given segment
through SubPolicy values (the walk getPolicy performs), instrumented with
the list of (address, segment) steps it takes.  At each segment the
current name must resolve to a SubPolicy tag: a missing name fails with
NameNotFound, a name of any other tag fails with TypeError. -/
def walkT (H : Heap) : Nat → List String → Except PolicyError (List (Nat × String) × Nat)
  | r, [] => .ok ([], r)
  | r, s :: rest =>
    match H.get r with
    | none => .error .nameNotFound
    | some d =>
      match assocFind s d with
      | none => .error .nameNotFound
      | some vs =>
        match lastVal vs with
        | some (.vSub b) =>
          match walkT H b rest with
          | .ok (tr, z) => .ok ((r, s) :: tr, z)
          | .error e => .error e
        | some _ => .error .typeError
        | none => .error .nameNotFound

/-- Modelled from the spec: resolve a dotted path up to its final segment,
returning the steps taken, the address of the Policy object holding the
final segment, and the final segment itself. -/
def resolveLastT (H : Heap) : Nat → List String → Except PolicyError (List (Nat × String) × Nat × String)
  | _, [] => .error .nameNotFound
  | r, [n] => .ok ([], r, n)
  | r, s :: s' :: rest =>
    match H.get r with
    | none => .error .nameNotFound
    | some d =>
      match assocFind s d with
      | none => .error .nameNotFound
      | some vs =>
        match lastVal vs with
        | some (.vSub b) =>
          match resolveLastT H b (s' :: rest) with
          | .ok (tr, f, n) => .ok ((r, s) :: tr, f, n)
          | .error e => .error e
        | some _ => .error .typeError
        | none => .error .nameNotFound

/-- Modelled from the spec: resolve a dotted path to the full ordered
value sequence stored under it. -/
def getSeq (H : Heap) (r : Nat) (segs : List String) : Except PolicyError (List Value) :=
  match resolveLastT H r segs with
  | .error e => .error e
  | .ok (_, f, n) =>
    match H.get f with
    | none => .error .nameNotFound
    | some d =>
      match assocFind n d with
      | none => .error .nameNotFound
      | some [] => .error .nameNotFound
      | some vs => .ok vs

/-- Split a character list at every dot. -/
def splitSegsL : List Char → List (List Char)
  | [] => [[]]
  | c :: t =>
    match splitSegsL t with
    | [] => [[]]
    | l :: ls => if c == '.' then [] :: l :: ls else (c :: l) :: ls

/-- Split a dotted name into its segments. -/
def splitName (name : String) : List String := (splitSegsL name.data).map String.mk

/-- Modelled from the spec: the probe for existence; never fails. -/
def existsP (H : Heap) (r : Nat) (name : String) : Bool :=
  match getSeq H r (splitName name) with
  | .ok _ => true
  | .error _ => false

/-- Modelled from the spec: the number of values stored under a name, zero
when the name does not resolve; never fails. -/
def valueCount (H : Heap) (r : Nat) (name : String) : Nat :=
  match getSeq H r (splitName name) with
  | .ok vs => vs.length
  | .error _ => 0

/-- Modelled from the spec: type probe for one tag; false on absence or
mismatch, never fails. -/
def isTag (t : Tag) (H : Heap) (r : Nat) (name : String) : Bool :=
  match getSeq H r (splitName name) with
  | .ok vs =>
    match lastVal vs with
    | some v => v.tag = t
    | none => false
  | .error _ => false

/-- Modelled from the spec: the isBool probe. -/
def isBool (H : Heap) (r : Nat) (name : String) : Bool := isTag .tBool H r name

/-- Modelled from the spec: the isInt probe. -/
def isInt (H : Heap) (r : Nat) (name : String) : Bool := isTag .tInt H r name

/-- Modelled from the spec: the isDouble probe. -/
def isDouble (H : Heap) (r : Nat) (name : String) : Bool := isTag .tDouble H r name

/-- Modelled from the spec: the isString probe. -/
def isString (H : Heap) (r : Nat) (name : String) : Bool := isTag .tString H r name

/-- Modelled from the spec: the isPolicy probe. -/
def isPolicy (H : Heap) (r : Nat) (name : String) : Bool := isTag .tSub H r name

/-- Modelled from the spec: the isFile probe. -/
def isFile (H : Heap) (r : Nat) (name : String) : Bool := isTag .tFile H r name

/-- Modelled from the spec: getTypeInfo, modelling the returned type_info
by the tag; fails with NameNotFound when the name does not resolve. -/
def getTypeInfo (H : Heap) (r : Nat) (name : String) : Except PolicyError Tag :=
  match getSeq H r (splitName name) with
  | .error e => .error e
  | .ok vs =>
    match lastVal vs with
    | some v => .ok v.tag
    | none => .error .nameNotFound

/-- Modelled from the spec: scalar string accessor, returning the back of
the sequence; TypeError on a tag mismatch. -/
def getString (H : Heap) (r : Nat) (name : String) : Except PolicyError String :=
  match getSeq H r (splitName name) with
  | .error e => .error e
  | .ok vs =>
    match lastVal vs with
    | some (.vString s) => .ok s
    | _ => .error .typeError

/-- Modelled from the spec: scalar int accessor. -/
def getInt (H : Heap) (r : Nat) (name : String) : Except PolicyError Int :=
  match getSeq H r (splitName name) with
  | .error e => .error e
  | .ok vs =>
    match lastVal vs with
    | some (.vInt i) => .ok i
    | _ => .error .typeError

/-- Modelled from the spec: scalar bool accessor. -/
def getBool (H : Heap) (r : Nat) (name : String) : Except PolicyError Bool :=
  match getSeq H r (splitName name) with
  | .error e => .error e
  | .ok vs =>
    match lastVal vs with
    | some (.vBool b) => .ok b
    | _ => .error .typeError

/-- Modelled from the spec: scalar double accessor. -/
def getDouble (H : Heap) (r : Nat) (name : String) : Except PolicyError ℚ :=
  match getSeq H r (splitName name) with
  | .error e => .error e
  | .ok vs =>
    match lastVal vs with
    | some (.vDouble q) => .ok q
    | _ => .error .typeError

/-- Modelled from the spec: defaulted scalar int accessor; returns the
default on absence, still TypeError on a tag mismatch. -/
def getIntDef (H : Heap) (r : Nat) (name : String) (dflt : Int) : Except PolicyError Int :=
  match getSeq H r (splitName name) with
  | .error .nameNotFound => .ok dflt
  | .error e => .error e
  | .ok vs =>
    match lastVal vs with
    | some (.vInt i) => .ok i
    | _ => .error .typeError

/-- Modelled from the spec: defaulted scalar string accessor. -/
def getStringDef (H : Heap) (r : Nat) (name : String) (dflt : String) : Except PolicyError String :=
  match getSeq H r (splitName name) with
  | .error .nameNotFound => .ok dflt
  | .error e => .error e
  | .ok vs =>
    match lastVal vs with
    | some (.vString s) => .ok s
    | _ => .error .typeError

/-- Modelled from the spec: defaulted scalar bool accessor. -/
def getBoolDef (H : Heap) (r : Nat) (name : String) (dflt : Bool) : Except PolicyError Bool :=
  match getSeq H r (splitName name) with
  | .error .nameNotFound => .ok dflt
  | .error e => .error e
  | .ok vs =>
    match lastVal vs with
    | some (.vBool b) => .ok b
    | _ => .error .typeError

/-- Modelled from the spec: defaulted scalar double accessor. -/
def getDoubleDef (H : Heap) (r : Nat) (name : String) (dflt : ℚ) : Except PolicyError ℚ :=
  match getSeq H r (splitName name) with
  | .error .nameNotFound => .ok dflt
  | .error e => .error e
  | .ok vs =>
    match lastVal vs with
    | some (.vDouble q) => .ok q
    | _ => .error .typeError

/-- Convert a sequence of values into strings when every element carries
the String tag. -/
def allStrings : List Value → Option (List String)
  | [] => some []
  | .vString s :: t => (allStrings t).map (s :: ·)
  | _ => none

/-- Modelled from the spec: string array accessor, returning the full
sequence in insertion order. -/
def getStringArray (H : Heap) (r : Nat) (name : String) : Except PolicyError (List String) :=
  match getSeq H r (splitName name) with
  | .error e => .error e
  | .ok vs =>
    match allStrings vs with
    | some ss => .ok ss
    | none => .error .typeError

/-- Modelled from the spec: getPolicy returns the address of the stored
nested Policy, a shared handle to the same object. -/
def getPolicy (H : Heap) (r : Nat) (name : String) : Except PolicyError Nat :=
  match walkT H r (splitName name) with
  | .ok (_, z) => .ok z
  | .error e => .error e

/-- Modelled from the spec: getFile returns the external identifier held
by the PolicyFile value, without any resolution. -/
def getFile (H : Heap) (r : Nat) (name : String) : Except PolicyError String :=
  match getSeq H r (splitName name) with
  | .error e => .error e
  | .ok vs =>
    match lastVal vs with
    | some (.vFile pth) => .ok pth
    | _ => .error .typeError

/-- Write modes of the two mutating operations: set replaces the whole
sequence, add appends to it. -/
inductive WMode where
  | replace
  | append
deriving DecidableEq, Repr

/-- The sequence a write leaves behind. -/
def modeSeq (m : WMode) (vs : List Value) (v : Value) : List Value :=
  match m with
  | .replace => [v]
  | .append => vs ++ [v]

/-- Modelled from the spec: the shared walking core of set and add over a
dotted path, instrumented with the (address, segment) steps taken and the
final cell and name written.  Missing intermediate segments are
materialized as fresh empty nested Policies bound into their parent;
intermediate segments of a non-SubPolicy tag fail with TypeError; at the
final segment a write to an existing name whose established tag differs
from the new value's tag fails with TypeError and changes nothing. -/
def writePathT (m : WMode) (H : Heap) (r : Nat) (segs : List String) (v : Value) :
    Except PolicyError (Heap × List (Nat × String) × Nat × String) :=
  match segs with
  | [] => .error .nameNotFound
  | [n] =>
    match H.get r with
    | none => .error .nameNotFound
    | some d =>
      match assocFind n d with
      | none => .ok (H.put r (assocSet n [v] d), [], r, n)
      | some vs =>
        match lastVal vs with
        | none => .ok (H.put r (assocSet n [v] d), [], r, n)
        | some w =>
          if w.tag = v.tag then .ok (H.put r (assocSet n (modeSeq m vs v) d), [], r, n)
          else .error .typeError
  | s :: s' :: rest =>
    match H.get r with
    | none => .error .nameNotFound
    | some d =>
      match assocFind s d with
      | some vs =>
        match lastVal vs with
        | some (.vSub b) =>
          match writePathT m H b (s' :: rest) v with
          | .ok (H', tr, f, n) => .ok (H', (r, s) :: tr, f, n)
          | .error e => .error e
        | some _ => .error .typeError
        | none => .error .nameNotFound
      | none =>
        match H.alloc [] with
        | (H1, b) =>
          match writePathT m (H1.put r (assocSet s [Value.vSub b] d)) b (s' :: rest) v with
          | .ok (H', tr, f, n) => .ok (H', (r, s) :: tr, f, n)
          | .error e => .error e

/-- Modelled from the spec: set replaces the entire sequence of the name
with the single-element sequence of the new value. -/
def setP (H : Heap) (r : Nat) (name : String) (v : Value) : Except PolicyError Heap :=
  match writePathT .replace H r (splitName name) v with
  | .ok (H', _, _, _) => .ok H'
  | .error e => .error e

/-- Modelled from the spec: add appends to the sequence of the name,
establishing it when new. -/
def addP (H : Heap) (r : Nat) (name : String) (v : Value) : Except PolicyError Heap :=
  match writePathT .append H r (splitName name) v with
  | .ok (H', _, _, _) => .ok H'
  | .error e => .error e

/-- Modelled from the spec: a shallow copy duplicates the top-level
mapping structure of the source Policy into a fresh object but shares all
nested SubPolicy objects with it. -/
def copyShallow (H : Heap) (r : Nat) : Heap × Nat :=
  match H.get r with
  | some d => H.alloc d
  | none => H.alloc []

/-- Deep-copy every element of one value sequence, cloning nested
sub-policies with the given cell-copy function. -/
def copyDeepSeqF (cd : Heap → Nat → Option (Heap × Nat)) : Heap → List Value → Option (Heap × List Value)
  | H, [] => some (H, [])
  | H, Value.vSub b :: t =>
    match cd H b with
    | none => none
    | some (H1, b1) =>
      match copyDeepSeqF cd H1 t with
      | none => none
      | some (H2, t2) => some (H2, Value.vSub b1 :: t2)
  | H, v :: t =>
    match copyDeepSeqF cd H t with
    | none => none
    | some (H2, t2) => some (H2, v :: t2)

/-- Deep-copy every entry of one Policy object's data, cloning nested
sub-policies with the given cell-copy function. -/
def copyDeepDataF (cd : Heap → Nat → Option (Heap × Nat)) : Heap → PolicyData → Option (Heap × PolicyData)
  | H, [] => some (H, [])
  | H, (n, vs) :: t =>
    match copyDeepSeqF cd H vs with
    | none => none
    | some (H1, vs1) =>
      match copyDeepDataF cd H1 t with
      | none => none
      | some (H2, t2) => some (H2, (n, vs1) :: t2)

/-- Modelled from the spec: a deep copy additionally snapshots nested
SubPolicy content recursively into fresh objects, so that later mutation
of the source's sub-trees is not visible through the deep copy.  Scalars
are copied by value.  The fuel bounds the nesting depth traversed. -/
def copyDeep : Nat → Heap → Nat → Option (Heap × Nat)
  | 0, _, _ => none
  | fu + 1, H, r =>
    match H.get r with
    | none => none
    | some d =>
      match copyDeepDataF (copyDeep fu) H d with
      | none => none
      | some (H1, d1) => some (H1.alloc d1)

/-- Whitespace as matched by the regex class used in PAFParserFactory.cc
(space, tab, newline, carriage return, vertical tab, form feed). -/
def isWsC (c : Char) : Bool :=
  c == ' ' || c == '\t' || c == '\n' || c == '\r' || c == '\x0b' || c == '\x0c'

/-- Word characters as matched by the regex class: letters, digits and
the underscore. -/
def isWordC (c : Char) : Bool := c.isAlpha || c.isDigit || c == '_'

/-- Case-insensitive comparison of a character against a lowercase
target, as the icase regex flag performs. -/
def lowEq (c target : Char) : Bool := c.toLower == target

/-- Drop a maximal run of whitespace characters. -/
def skipWsL : List Char → List Char
  | [] => []
  | c :: t => if isWsC c then skipWsL t else c :: t

/-- Embedded from PAFParserFactory.cc CONTENTID: the tail grammar after
the PAF token once at least one whitespace character has been consumed; a
run of whitespace-separated word groups followed by optional whitespace
and the closing marker may follow. -/
def pafTail : List Char → Bool
  | [] => false
  | c :: u =>
    if isWsC c || isWordC c then pafTail u
    else c == '?' && u.head? == some '>'

/-- Embedded from PAFParserFactory.cc CONTENTID: the tail grammar right
after the PAF token, where only whitespace or the closing marker may
follow. -/
def afterPAF : List Char → Bool
  | [] => false
  | c :: u =>
    if isWsC c then pafTail u
    else c == '?' && u.head? == some '>'

/-- Embedded from PAFParserFactory.cc: whether the CONTENTID pattern,
the explicit content declaration comment for the PAF format with the
icase flag, matches at this position. -/
def matchContentId (s : List Char) : Bool :=
  match skipWsL s with
  | '#' :: r =>
    match skipWsL r with
    | '<' :: '?' :: c1 :: c2 :: c3 :: r3 =>
      lowEq c1 'c' && lowEq c2 'f' && lowEq c3 'g' &&
      (match r3 with
       | c4 :: r4 =>
         isWsC c4 &&
         (match skipWsL r4 with
          | p :: q :: g :: r5 => lowEq p 'p' && lowEq q 'a' && lowEq g 'f' && afterPAF r5
          | _ => false)
       | [] => false)
    | _ => false
  | _ => false

/-- Embedded from PAFParserFactory.cc: whether the LEADER_PATTERN, a line
anchor followed by optional whitespace and a word character, matches at
this position. -/
def matchLeader (s : List Char) : Bool :=
  match skipWsL s with
  | c :: _ => isWordC c
  | [] => false

/-- Search for a line-anchored pattern at every position following a
newline, as the multiline anchor of the regex search behaves. -/
def searchNL (m : List Char → Bool) : List Char → Bool
  | [] => false
  | c :: t => (c == '\n' && m t) || searchNL m t

/-- Line-anchored regex search: try the start of the text and every
position following a newline. -/
def regexSearchML (m : List Char → Bool) (s : List Char) : Bool :=
  m s || searchNL m s

/-- Embedded from PAFParserFactory.cc recognize: the leading bytes are
recognized when the CONTENTID declaration matches or the weak
LEADER_PATTERN heuristic matches. -/
def recognizeL (s : List Char) : Bool :=
  regexSearchML matchContentId s || regexSearchML matchLeader s

/-- Embedded from PAFParserFactory.cc recognize, on strings. -/
def recognize (leaders : String) : Bool := recognizeL leaders.data

/-- Split a character stream into its lines. -/
def splitLinesL : List Char → List (List Char)
  | [] => [[]]
  | c :: t =>
    match splitLinesL t with
    | [] => [[]]
    | l :: ls => if c == '\n' then [] :: l :: ls else (c :: l) :: ls

/-- A line consisting only of whitespace. -/
def isBlankL (l : List Char) : Bool := (skipWsL l).isEmpty

/-- A comment line: its first non-whitespace character is the comment
marker. -/
def isCommentL (l : List Char) : Bool :=
  match skipWsL l with
  | '#' :: _ => true
  | _ => false

/-- The first non-comment, non-blank line of the stream. -/
def firstContentLine (s : List Char) : Option (List Char) :=
  (splitLinesL s).find? (fun l => !(isBlankL l) && !(isCommentL l))

/-- Stated from the claim's words for comparison with the code: the first
non-comment, non-blank line of the leading bytes starts with a word
character after optional whitespace. -/
def specFirstLineWord (s : List Char) : Bool :=
  match firstContentLine s with
  | some l =>
    match skipWsL l with
    | c :: _ => isWordC c
    | [] => false
  | none => false

/-- The suffixes of the stream that start right after a newline. -/
def lineSuffixes : List Char → List (List Char)
  | [] => []
  | c :: t => (if c == '\n' then [t] else []) ++ lineSuffixes t

/-- Stated from the amended claim's words: some line of the stream,
comments included, is followed after optional whitespace (which may span
blank lines) by a word character. -/
def specAnyLineWord (s : List Char) : Bool :=
  (s :: lineSuffixes s).any (fun t =>
    match skipWsL t with
    | c :: _ => isWordC c
    | [] => false)

/-- The binding of one name inside one Policy object. -/
def lookupName (H : Heap) (a : Nat) (s : String) : Option (List Value) :=
  match H.get a with
  | some d => assocFind s d
  | none => none

/-- Every SubPolicy reference inside the cells of the address region
points back into the region. -/
def regionClosed (H : Heap) (lo hi : Nat) : Prop :=
  ∀ b d, lo ≤ b → b < hi → H.get b = some d →
    ∀ e ∈ d, ∀ v ∈ e.2, ∀ c, v = Value.vSub c → lo ≤ c ∧ c < hi

/-- The second heap extends the first purely with fresh cells whose
addresses and SubPolicy references stay inside the fresh region; this is
the shape of heap growth a deep copy performs. -/
def HeapExt (H H' : Heap) : Prop :=
  H.next ≤ H'.next ∧
  ∃ Δ, H'.cells = Δ ++ H.cells ∧
    ∀ p ∈ Δ, (H.next ≤ p.1 ∧ p.1 < H'.next) ∧
      ∀ e ∈ p.2, ∀ v ∈ e.2, ∀ c, v = Value.vSub c → H.next ≤ c ∧ c < H'.next

/-- All elements of every value sequence of the data share one tag. -/
def DataWT (d : PolicyData) : Prop :=
  ∀ e ∈ d, ∀ v ∈ e.2, ∀ w ∈ e.2, Value.tag v = Value.tag w

/-- The single-tag invariant over the whole heap: no name of any Policy
object mixes tags inside its value sequence. -/
def HeapWT (H : Heap) : Prop := ∀ p ∈ H.cells, DataWT p.2

instance (d : PolicyData) : Decidable (DataWT d) := by
  unfold DataWT; infer_instance

instance (H : Heap) : Decidable (HeapWT H) := by
  unfold HeapWT; infer_instance

/-- No element of the sequence is a SubPolicy reference. -/
def allNonSub (vs : List Value) : Prop := ∀ v ∈ vs, Value.tag v ≠ Tag.tSub

instance (vs : List Value) : Decidable (allNonSub vs) := by
  unfold allNonSub; infer_instance

/-- A freshly created empty Policy: one allocated object with no names. -/
def emptyPolicy : Heap := ⟨1, [(0, [])]⟩

/-- Specification of a cell-copy function: the heap grows only by fresh
cells whose SubPolicy references stay fresh, the clone root is fresh, and
scalar bindings of the copied object are preserved verbatim. -/
def DeepCopies (cd : Heap → Nat → Option (Heap × Nat)) : Prop :=
  ∀ H r H' r', cd H r = some (H', r') →
    HeapExt H H' ∧ H.next ≤ r' ∧ r' < H'.next ∧
    (∀ d, H.get r = some d → ∃ d1, H'.get r' = some d1 ∧
      (∀ nm vs, assocFind nm d = some vs → allNonSub vs → assocFind nm d1 = some vs))

/-!  Basic lemmas about association lists and the heap. -/

theorem assocFind_set_self {α β : Type} [DecidableEq α] (k : α) (v : β) :
    ∀ l : List (α × β), assocFind k (assocSet k v l) = some v := by
  intro l
  induction l with
  | nil => simp [assocSet, assocFind]
  | cons p t ih =>
    obtain ⟨a, b⟩ := p
    by_cases h : a = k
    · simp [assocSet, h, assocFind]
    · simp [assocSet, h, assocFind, ih]

theorem assocFind_set_ne {α β : Type} [DecidableEq α] {k k' : α} (v : β) (h : k' ≠ k) :
    ∀ l : List (α × β), assocFind k' (assocSet k v l) = assocFind k' l := by
  intro l
  have hk : k ≠ k' := Ne.symm h
  induction l with
  | nil => simp [assocSet, assocFind, hk]
  | cons p t ih =>
    obtain ⟨a, b⟩ := p
    by_cases ha : a = k
    · subst ha
      simp [assocSet, assocFind, hk]
    · simp [assocSet, ha, assocFind, ih]

theorem mem_assocSet {α β : Type} [DecidableEq α] {k : α} {v : β} :
    ∀ {l : List (α × β)} {p}, p ∈ assocSet k v l → p = (k, v) ∨ p ∈ l := by
  intro l
  induction l with
  | nil => intro p hp; simp [assocSet] at hp; exact Or.inl hp
  | cons q t ih =>
    intro p hp
    obtain ⟨a, b⟩ := q
    by_cases hq : a = k
    · simp only [assocSet, hq, if_pos, List.mem_cons] at hp
      rcases hp with hp | hp
      · exact Or.inl hp
      · exact Or.inr (List.mem_cons_of_mem _ hp)
    · simp only [assocSet, hq, if_neg, not_false_iff, List.mem_cons] at hp
      rcases hp with hp | hp
      · exact Or.inr (List.mem_cons.mpr (Or.inl hp))
      · rcases ih hp with h | h
        · exact Or.inl h
        · exact Or.inr (List.mem_cons_of_mem _ h)

theorem assocFind_some_mem {α β : Type} [DecidableEq α] {k : α} :
    ∀ {l : List (α × β)} {b}, assocFind k l = some b → (k, b) ∈ l := by
  intro l
  induction l with
  | nil => intro b h; simp [assocFind] at h
  | cons p t ih =>
    intro b h
    obtain ⟨a, c⟩ := p
    by_cases ha : a = k
    · subst ha
      simp [assocFind] at h
      subst h
      exact List.mem_cons_self _ _
    · simp [assocFind, ha] at h
      exact List.mem_cons_of_mem _ (ih h)

theorem assocFind_append_of_no_key {α β : Type} [DecidableEq α] {k : α}
    {Δ l : List (α × β)} (h : ∀ p ∈ Δ, p.1 ≠ k) :
    assocFind k (Δ ++ l) = assocFind k l := by
  induction Δ with
  | nil => rfl
  | cons p t ih =>
    obtain ⟨a, b⟩ := p
    have hp : a ≠ k := h (a, b) (List.mem_cons_self _ _)
    simp only [List.cons_append, assocFind, hp, if_neg, not_false_iff]
    exact ih (fun q hq => h q (List.mem_cons_of_mem _ hq))

theorem lastVal_mem : ∀ {vs : List Value} {w}, lastVal vs = some w → w ∈ vs := by
  intro vs
  induction vs with
  | nil => intro w h; simp [lastVal] at h
  | cons v t ih =>
    intro w h
    match t, h with
    | [], h => simp [lastVal] at h; simp [h]
    | u :: t', h =>
      rw [lastVal, List.getLast?_cons_cons] at h
      exact List.mem_cons_of_mem _ (ih h)

theorem lastVal_concat (vs : List Value) (v : Value) : lastVal (vs ++ [v]) = some v := by
  simp [lastVal]

theorem Heap.get_put_self (H : Heap) (a : Nat) (d : PolicyData) :
    (H.put a d).get a = some d := by
  simp [Heap.get, Heap.put, assocFind_set_self]

theorem Heap.get_put_ne (H : Heap) {a b : Nat} (d : PolicyData) (h : b ≠ a) :
    (H.put a d).get b = H.get b := by
  simp [Heap.get, Heap.put, assocFind_set_ne d h]

theorem Heap.put_next (H : Heap) (a : Nat) (d : PolicyData) : (H.put a d).next = H.next := rfl

theorem Heap.get_alloc_self (H : Heap) (d : PolicyData) :
    ((H.alloc d).1).get H.next = some d := by
  simp [Heap.get, Heap.alloc, assocFind]

theorem Heap.get_alloc_ne (H : Heap) (d : PolicyData) {b : Nat} (h : b ≠ H.next) :
    ((H.alloc d).1).get b = H.get b := by
  simp [Heap.get, Heap.alloc, assocFind, Ne.symm h]

theorem Heap.alloc_next (H : Heap) (d : PolicyData) : ((H.alloc d).1).next = H.next + 1 := rfl

theorem Heap.get_some_lt {H : Heap} (hwf : H.wf) {a : Nat} {d : PolicyData}
    (h : H.get a = some d) : a < H.next :=
  hwf _ (assocFind_some_mem h)

theorem Heap.wf_put {H : Heap} (hwf : H.wf) {a : Nat} {d0 d : PolicyData}
    (h : H.get a = some d0) : (H.put a d).wf := by
  intro p hp
  rcases mem_assocSet hp with rfl | hp'
  · exact H.get_some_lt hwf h
  · exact hwf _ hp'

theorem Heap.wf_alloc {H : Heap} (hwf : H.wf) (d : PolicyData) : ((H.alloc d).1).wf := by
  intro p hp
  rcases List.mem_cons.mp hp with rfl | hp'
  · simp [Heap.alloc]
  · exact Nat.lt_succ_of_lt (hwf _ hp')

theorem Heap.closed_sub {H : Heap} (hcl : H.closed) {a : Nat} {d : PolicyData}
    (h : H.get a = some d) {s : String} {vs : List Value} (hs : assocFind s d = some vs)
    {c : Nat} (hv : Value.vSub c ∈ vs) : c < H.next := by
  have := hcl _ (assocFind_some_mem h) _ (assocFind_some_mem hs) _ hv
  simpa [Value.subLt] using this

theorem lookupName_eq (H : Heap) (a : Nat) (s : String) {d : PolicyData}
    (h : H.get a = some d) : lookupName H a s = assocFind s d := by
  simp [lookupName, h]

/-!  Lemmas about dotted-path resolution. -/

theorem lookupName_some {H : Heap} {a : Nat} {s : String} {vs : List Value}
    (h : lookupName H a s = some vs) :
    ∃ d, H.get a = some d ∧ assocFind s d = some vs := by
  unfold lookupName at h
  cases hg : H.get a with
  | none => rw [hg] at h; cases h
  | some d => rw [hg] at h; exact ⟨d, rfl, h⟩

theorem walkT_nil (H : Heap) (r : Nat) : walkT H r [] = .ok ([], r) := by
  simp [walkT]

theorem walkT_cons_inv {H : Heap} {r : Nat} {s : String} {rest : List String}
    {tr : List (Nat × String)} {z : Nat}
    (h : walkT H r (s :: rest) = .ok (tr, z)) :
    ∃ vs b tr', lookupName H r s = some vs ∧ lastVal vs = some (Value.vSub b) ∧
      walkT H b rest = .ok (tr', z) ∧ tr = (r, s) :: tr' := by
  rw [walkT] at h
  cases hg : H.get r with
  | none => simp only [hg] at h; exact Except.noConfusion h
  | some d =>
    simp only [hg] at h
    cases hf : assocFind s d with
    | none => simp only [hf] at h; exact Except.noConfusion h
    | some vs =>
      simp only [hf] at h
      cases hl : lastVal vs with
      | none => simp only [hl] at h; exact Except.noConfusion h
      | some w =>
        simp only [hl] at h
        cases w with
        | vSub b =>
          cases hw : walkT H b rest with
          | error e => simp only [hw] at h; exact Except.noConfusion h
          | ok p =>
            obtain ⟨tr', z'⟩ := p
            simp only [hw] at h
            simp at h
            obtain ⟨h1, h2⟩ := h
            exact ⟨vs, b, tr', by simp [lookupName, hg, hf], hl, by rw [hw, h2], h1.symm⟩
        | vBool b => simp at h
        | vInt i => simp at h
        | vDouble q => simp at h
        | vString t => simp at h
        | vFile t => simp at h

theorem walkT_cons_of {H : Heap} {r : Nat} {s : String} {rest : List String}
    {vs : List Value} {b : Nat} {tr' : List (Nat × String)} {z : Nat}
    (h1 : lookupName H r s = some vs) (h2 : lastVal vs = some (Value.vSub b))
    (h3 : walkT H b rest = .ok (tr', z)) :
    walkT H r (s :: rest) = .ok ((r, s) :: tr', z) := by
  obtain ⟨d, hg, hf⟩ := lookupName_some h1
  rw [walkT]
  simp only [hg, hf, h2, h3]

theorem walkT_frame {H H' : Heap} :
    ∀ {segs : List String} {r : Nat} {tr : List (Nat × String)} {z : Nat},
    walkT H r segs = .ok (tr, z) →
    (∀ q ∈ tr, lookupName H' q.1 q.2 = lookupName H q.1 q.2) →
    walkT H' r segs = .ok (tr, z) := by
  intro segs
  induction segs with
  | nil =>
    intro r tr z h _
    rw [walkT_nil] at h ⊢
    exact h
  | cons s rest ih =>
    intro r tr z h hagree
    obtain ⟨vs, b, tr', h1, h2, h3, rfl⟩ := walkT_cons_inv h
    have h1' : lookupName H' r s = some vs := by
      rw [hagree (r, s) (List.mem_cons_self _ _)]; exact h1
    have h3' := ih h3 (fun q hq => hagree q (List.mem_cons_of_mem _ hq))
    exact walkT_cons_of h1' h2 h3'

theorem walkT_bounds {H : Heap} (hcl : H.closed) :
    ∀ {segs : List String} {r : Nat} {tr : List (Nat × String)} {z : Nat},
    walkT H r segs = .ok (tr, z) → r < H.next →
    (∀ q ∈ tr, q.1 < H.next) ∧ z < H.next := by
  intro segs
  induction segs with
  | nil =>
    intro r tr z h hr
    rw [walkT_nil] at h
    cases h
    exact ⟨by simp, hr⟩
  | cons s rest ih =>
    intro r tr z h hr
    obtain ⟨vs, b, tr', h1, h2, h3, rfl⟩ := walkT_cons_inv h
    obtain ⟨d, hg, hf⟩ := lookupName_some h1
    have hb : b < H.next := Heap.closed_sub hcl hg hf (lastVal_mem h2)
    obtain ⟨htr, hz⟩ := ih h3 hb
    refine ⟨?_, hz⟩
    intro q hq
    rcases List.mem_cons.mp hq with rfl | hq'
    · exact hr
    · exact htr q hq'

theorem resolveLastT_single (H : Heap) (r : Nat) (n : String) :
    resolveLastT H r [n] = .ok ([], r, n) := by
  simp [resolveLastT]

theorem resolveLastT_cons_inv {H : Heap} {r : Nat} {s s' : String} {rest : List String}
    {tr : List (Nat × String)} {f : Nat} {n : String}
    (h : resolveLastT H r (s :: s' :: rest) = .ok (tr, f, n)) :
    ∃ vs b tr', lookupName H r s = some vs ∧ lastVal vs = some (Value.vSub b) ∧
      resolveLastT H b (s' :: rest) = .ok (tr', f, n) ∧ tr = (r, s) :: tr' := by
  rw [resolveLastT] at h
  cases hg : H.get r with
  | none => simp only [hg] at h; exact Except.noConfusion h
  | some d =>
    simp only [hg] at h
    cases hf : assocFind s d with
    | none => simp only [hf] at h; exact Except.noConfusion h
    | some vs =>
      simp only [hf] at h
      cases hl : lastVal vs with
      | none => simp only [hl] at h; exact Except.noConfusion h
      | some w =>
        simp only [hl] at h
        cases w with
        | vSub b =>
          cases hw : resolveLastT H b (s' :: rest) with
          | error e => simp only [hw] at h; exact Except.noConfusion h
          | ok p =>
            obtain ⟨tr', f', n'⟩ := p
            simp only [hw] at h
            simp at h
            obtain ⟨h1, h2, h3⟩ := h
            exact ⟨vs, b, tr', by simp [lookupName, hg, hf], hl,
              by rw [hw, h2, h3], h1.symm⟩
        | vBool b => simp at h
        | vInt i => simp at h
        | vDouble q => simp at h
        | vString t => simp at h
        | vFile t => simp at h

theorem resolveLastT_cons_of {H : Heap} {r : Nat} {s s' : String} {rest : List String}
    {vs : List Value} {b : Nat} {tr' : List (Nat × String)} {f : Nat} {n : String}
    (h1 : lookupName H r s = some vs) (h2 : lastVal vs = some (Value.vSub b))
    (h3 : resolveLastT H b (s' :: rest) = .ok (tr', f, n)) :
    resolveLastT H r (s :: s' :: rest) = .ok ((r, s) :: tr', f, n) := by
  obtain ⟨d, hg, hf⟩ := lookupName_some h1
  rw [resolveLastT]
  simp only [hg, hf, h2, h3]

theorem resolveLastT_of_walkT {H : Heap} (n : String) :
    ∀ {xs : List String} {r : Nat} {tr : List (Nat × String)} {z : Nat},
    walkT H r xs = .ok (tr, z) →
    resolveLastT H r (xs ++ [n]) = .ok (tr, z, n) := by
  intro xs
  induction xs with
  | nil =>
    intro r tr z h
    rw [walkT_nil] at h
    cases h
    simpa using resolveLastT_single H r n
  | cons s rest ih =>
    intro r tr z h
    obtain ⟨vs, b, tr', h1, h2, h3, rfl⟩ := walkT_cons_inv h
    have h3' := ih h3
    cases rest with
    | nil => simpa using resolveLastT_cons_of h1 h2 (by simpa using h3')
    | cons u us => simpa using resolveLastT_cons_of h1 h2 (by simpa using h3')

theorem walkT_of_resolveLastT {H : Heap} :
    ∀ {segs : List String} {r : Nat} {tr : List (Nat × String)} {f : Nat} {n : String},
    resolveLastT H r segs = .ok (tr, f, n) →
    segs = tr.map Prod.snd ++ [n] ∧ walkT H r (tr.map Prod.snd) = .ok (tr, f) := by
  intro segs
  induction segs with
  | nil => intro r tr f n h; rw [resolveLastT] at h; cases h
  | cons s rest ih =>
    intro r tr f n h
    cases rest with
    | nil =>
      rw [resolveLastT_single] at h
      cases h
      exact ⟨rfl, walkT_nil H r⟩
    | cons s' rest' =>
      obtain ⟨vs, b, tr', h1, h2, h3, rfl⟩ := resolveLastT_cons_inv h
      obtain ⟨hshape, hwalk⟩ := ih h3
      constructor
      · simpa using hshape
      · simpa using walkT_cons_of h1 h2 hwalk

theorem resolveLastT_frame {H H' : Heap} :
    ∀ {segs : List String} {r : Nat} {tr : List (Nat × String)} {f : Nat} {n : String},
    resolveLastT H r segs = .ok (tr, f, n) →
    (∀ q ∈ tr, lookupName H' q.1 q.2 = lookupName H q.1 q.2) →
    resolveLastT H' r segs = .ok (tr, f, n) := by
  intro segs
  induction segs with
  | nil => intro r tr f n h _; rw [resolveLastT] at h; exact Except.noConfusion h
  | cons s rest ih =>
    intro r tr f n h hagree
    cases rest with
    | nil =>
      rw [resolveLastT_single] at h
      cases h
      exact resolveLastT_single H' r s
    | cons s' rest' =>
      obtain ⟨vs, b, tr', h1, h2, h3, rfl⟩ := resolveLastT_cons_inv h
      have h1' : lookupName H' r s = some vs := by
        rw [hagree (r, s) (List.mem_cons_self _ _)]; exact h1
      have h3' := ih h3 (fun q hq => hagree q (List.mem_cons_of_mem _ hq))
      exact resolveLastT_cons_of h1' h2 h3'

theorem getSeq_eq_lookupName (H : Heap) (r : Nat) (segs : List String) :
    getSeq H r segs =
      match resolveLastT H r segs with
      | .error e => .error e
      | .ok (_, f, n) =>
        match lookupName H f n with
        | none => .error .nameNotFound
        | some [] => .error .nameNotFound
        | some vs => .ok vs := by
  rw [getSeq]
  cases hres : resolveLastT H r segs with
  | error e => rfl
  | ok p =>
    obtain ⟨tr, f, n⟩ := p
    simp only []
    cases hg : H.get f with
    | none => simp [lookupName, hg]
    | some d => simp [lookupName, hg]

theorem getSeq_of_resolve {H : Heap} {r : Nat} {segs : List String}
    {tr : List (Nat × String)} {f : Nat} {n : String} {vs : List Value}
    (hres : resolveLastT H r segs = .ok (tr, f, n))
    (hb : lookupName H f n = some vs) (hne : vs ≠ []) :
    getSeq H r segs = .ok vs := by
  rw [getSeq_eq_lookupName, hres]
  cases vs with
  | nil => exact absurd rfl hne
  | cons a t => simp [hb]

theorem resolveLastT_region {H H' : Heap} {lo hi : Nat}
    (hagree : ∀ b, lo ≤ b → b < hi → H'.get b = H.get b)
    (hclosed : regionClosed H lo hi) :
    ∀ {segs : List String} {r : Nat}, lo ≤ r → r < hi →
    resolveLastT H' r segs = resolveLastT H r segs ∧
    (∀ tr f n, resolveLastT H r segs = .ok (tr, f, n) → lo ≤ f ∧ f < hi) := by
  intro segs
  induction segs with
  | nil =>
    intro r _ _
    constructor
    · rw [resolveLastT, resolveLastT]
    · intro tr f n h; rw [resolveLastT] at h; exact Except.noConfusion h
  | cons s rest ih =>
    intro r hlo hhi
    cases rest with
    | nil =>
      constructor
      · rw [resolveLastT_single, resolveLastT_single]
      · intro tr f n h
        rw [resolveLastT_single] at h
        cases h
        exact ⟨hlo, hhi⟩
    | cons s' rest' =>
      have hr : H'.get r = H.get r := hagree r hlo hhi
      constructor
      · rw [resolveLastT, resolveLastT, hr]
        cases hg : H.get r with
        | none => simp only [hg]
        | some d =>
          simp only [hg]
          cases hf : assocFind s d with
          | none => simp only [hf]
          | some vs =>
            simp only [hf]
            cases hl : lastVal vs with
            | none => rfl
            | some w =>
              cases w with
              | vSub b =>
                have hbr : lo ≤ b ∧ b < hi :=
                  hclosed r d hlo hhi hg _ (assocFind_some_mem hf) _ (lastVal_mem hl) b rfl
                simp only []
                rw [(ih hbr.1 hbr.2).1]
              | vBool x => rfl
              | vInt x => rfl
              | vDouble x => rfl
              | vString x => rfl
              | vFile x => rfl
      · intro tr f n h
        obtain ⟨vs, b, tr', h1, h2, h3, rfl⟩ := resolveLastT_cons_inv h
        obtain ⟨d, hg, hf⟩ := lookupName_some h1
        have hbr : lo ≤ b ∧ b < hi :=
          hclosed r d hlo hhi hg _ (assocFind_some_mem hf) _ (lastVal_mem h2) b rfl
        exact (ih hbr.1 hbr.2).2 tr' f n h3

theorem getSeq_region {H H' : Heap} {lo hi : Nat}
    (hagree : ∀ b, lo ≤ b → b < hi → H'.get b = H.get b)
    (hclosed : regionClosed H lo hi) {segs : List String} {r : Nat}
    (hlo : lo ≤ r) (hhi : r < hi) :
    getSeq H' r segs = getSeq H r segs := by
  obtain ⟨heq, hreg⟩ := @resolveLastT_region H H' lo hi hagree hclosed segs r hlo hhi
  rw [getSeq_eq_lookupName, getSeq_eq_lookupName, heq]
  cases hres : resolveLastT H r segs with
  | error e => simp only [hres]
  | ok p =>
    obtain ⟨tr, f, n⟩ := p
    have hf := hreg tr f n hres
    have hl : lookupName H' f n = lookupName H f n := by
      unfold lookupName
      rw [hagree f hf.1 hf.2]
    simp only [hres, hl]

/-!  Lemmas about the write path of set and add. -/

theorem writePathT_single_inv {m : WMode} {H : Heap} {r : Nat} {n : String} {v : Value}
    {H' : Heap} {tr : List (Nat × String)} {f : Nat} {n' : String}
    (h : writePathT m H r [n] v = .ok (H', tr, f, n')) :
    tr = [] ∧ f = r ∧ n' = n ∧
    ∃ d S, H.get r = some d ∧ H' = H.put r (assocSet n S d) ∧
      ((assocFind n d = none ∧ S = [v]) ∨
       (∃ vs, assocFind n d = some vs ∧ lastVal vs = none ∧ S = [v]) ∨
       (∃ vs w, assocFind n d = some vs ∧ lastVal vs = some w ∧ Value.tag w = Value.tag v ∧
         S = modeSeq m vs v)) := by
  rw [writePathT] at h
  cases hg : H.get r with
  | none => simp only [hg] at h; exact Except.noConfusion h
  | some d =>
    simp only [hg] at h
    cases hf : assocFind n d with
    | none =>
      simp only [hf] at h
      injection h with h1
      injection h1 with hH h2
      injection h2 with htr h3
      injection h3 with hfin hn
      subst hH htr hfin hn
      exact ⟨rfl, rfl, rfl, d, [v], rfl, rfl, Or.inl ⟨hf, rfl⟩⟩
    | some vs =>
      simp only [hf] at h
      cases hl : lastVal vs with
      | none =>
        simp only [hl] at h
        injection h with h1
        injection h1 with hH h2
        injection h2 with htr h3
        injection h3 with hfin hn
        subst hH htr hfin hn
        exact ⟨rfl, rfl, rfl, d, [v], rfl, rfl, Or.inr (Or.inl ⟨vs, hf, hl, rfl⟩)⟩
      | some w =>
        simp only [hl] at h
        by_cases htag : Value.tag w = Value.tag v
        · simp only [htag, if_pos] at h
          injection h with h1
          injection h1 with hH h2
          injection h2 with htr h3
          injection h3 with hfin hn
          subst hH htr hfin hn
          exact ⟨rfl, rfl, rfl, d, modeSeq m vs v, rfl, rfl,
            Or.inr (Or.inr ⟨vs, w, hf, hl, htag, rfl⟩)⟩
        · simp only [htag, if_neg, not_false_iff] at h
          exact Except.noConfusion h

theorem writePathT_cons_inv {m : WMode} {H : Heap} {r : Nat} {s s' : String}
    {rest : List String} {v : Value} {H' : Heap} {tr : List (Nat × String)}
    {f : Nat} {n : String}
    (h : writePathT m H r (s :: s' :: rest) v = .ok (H', tr, f, n)) :
    ∃ d, H.get r = some d ∧
      ((∃ vs b tr', assocFind s d = some vs ∧ lastVal vs = some (Value.vSub b) ∧
          writePathT m H b (s' :: rest) v = .ok (H', tr', f, n) ∧ tr = (r, s) :: tr') ∨
       (∃ tr', assocFind s d = none ∧
          writePathT m (((H.alloc []).1).put r (assocSet s [Value.vSub H.next] d))
            H.next (s' :: rest) v = .ok (H', tr', f, n) ∧ tr = (r, s) :: tr')) := by
  rw [writePathT] at h
  cases hg : H.get r with
  | none => simp only [hg] at h; exact Except.noConfusion h
  | some d =>
    simp only [hg] at h
    cases hf : assocFind s d with
    | none =>
      simp only [hf] at h
      simp only [show H.alloc [] = (⟨H.next + 1, (H.next, []) :: H.cells⟩, H.next) from rfl] at h
      cases hw : writePathT m ((⟨H.next + 1, (H.next, []) :: H.cells⟩ : Heap).put r
          (assocSet s [Value.vSub H.next] d)) H.next (s' :: rest) v with
      | error e =>
        simp only [hw] at h
        exact Except.noConfusion h
      | ok p =>
        obtain ⟨H'', tr', f', n'⟩ := p
        simp only [hw] at h
        injection h with h1
        injection h1 with hH h2
        injection h2 with htr h3
        injection h3 with hfin hn
        subst hH hfin hn
        exact ⟨d, rfl, Or.inr ⟨tr', hf, hw, htr.symm⟩⟩
    | some vs =>
      simp only [hf] at h
      cases hl : lastVal vs with
      | none => simp only [hl] at h; exact Except.noConfusion h
      | some w =>
        simp only [hl] at h
        cases w with
        | vSub b =>
          cases hw : writePathT m H b (s' :: rest) v with
          | error e => simp only [hw] at h; exact Except.noConfusion h
          | ok p =>
            obtain ⟨H'', tr', f', n'⟩ := p
            simp only [hw] at h
            injection h with h1
            injection h1 with hH h2
            injection h2 with htr h3
            injection h3 with hfin hn
            subst hH hfin hn
            exact ⟨d, rfl, Or.inl ⟨vs, b, tr', hf, hl, hw, htr.symm⟩⟩
        | vBool x => simp at h
        | vInt x => simp at h
        | vDouble x => simp at h
        | vString x => simp at h
        | vFile x => simp at h

theorem writePathT_next_le {m : WMode} {v : Value} :
    ∀ {segs : List String} {H : Heap} {r : Nat} {H' : Heap} {tr : List (Nat × String)}
      {f : Nat} {n : String},
    writePathT m H r segs v = .ok (H', tr, f, n) → H.next ≤ H'.next := by
  intro segs
  induction segs with
  | nil => intro H r H' tr f n h; rw [writePathT] at h; exact Except.noConfusion h
  | cons s rest ih =>
    intro H r H' tr f n h
    cases rest with
    | nil =>
      obtain ⟨-, -, -, d, S, hg, rfl, -⟩ := writePathT_single_inv h
      exact Nat.le_of_eq rfl
    | cons s' rest' =>
      obtain ⟨d, hg, hcase⟩ := writePathT_cons_inv h
      rcases hcase with ⟨vs, b, tr', hf, hl, hrec, rfl⟩ | ⟨tr', hf, hrec, rfl⟩
      · exact ih hrec
      · have := ih hrec
        simp only [Heap.put_next, Heap.alloc_next] at this
        omega

theorem writePathT_wf {m : WMode} {v : Value} :
    ∀ {segs : List String} {H : Heap} {r : Nat} {H' : Heap} {tr : List (Nat × String)}
      {f : Nat} {n : String},
    H.wf → writePathT m H r segs v = .ok (H', tr, f, n) → H'.wf := by
  intro segs
  induction segs with
  | nil => intro H r H' tr f n _ h; rw [writePathT] at h; exact Except.noConfusion h
  | cons s rest ih =>
    intro H r H' tr f n hwf h
    cases rest with
    | nil =>
      obtain ⟨-, -, -, d, S, hg, rfl, -⟩ := writePathT_single_inv h
      exact Heap.wf_put hwf hg
    | cons s' rest' =>
      obtain ⟨d, hg, hcase⟩ := writePathT_cons_inv h
      rcases hcase with ⟨vs, b, tr', hf, hl, hrec, rfl⟩ | ⟨tr', hf, hrec, rfl⟩
      · exact ih hwf hrec
      · have hr : r < H.next := Heap.get_some_lt hwf hg
        have hga : ((H.alloc []).1).get r = some d := by
          rw [Heap.get_alloc_ne H [] (Nat.ne_of_lt hr)]; exact hg
        have hwf2 : (((H.alloc []).1).put r (assocSet s [Value.vSub H.next] d)).wf :=
          Heap.wf_put (Heap.wf_alloc hwf []) hga
        exact ih hwf2 hrec

theorem writePathT_get_outside {m : WMode} {v : Value} :
    ∀ {segs : List String} {H : Heap} {r : Nat} {H' : Heap} {tr : List (Nat × String)}
      {f : Nat} {n : String},
    H.wf → writePathT m H r segs v = .ok (H', tr, f, n) →
    ∀ a, a ∉ tr.map Prod.fst → a ≠ f → a < H.next → H'.get a = H.get a := by
  intro segs
  induction segs with
  | nil => intro H r H' tr f n _ h; rw [writePathT] at h; exact Except.noConfusion h
  | cons s rest ih =>
    intro H r H' tr f n hwf h a hatr haf halt
    cases rest with
    | nil =>
      obtain ⟨rfl, rfl, rfl, d, S, hg, rfl, -⟩ := writePathT_single_inv h
      exact Heap.get_put_ne H _ haf
    | cons s' rest' =>
      obtain ⟨d, hg, hcase⟩ := writePathT_cons_inv h
      rcases hcase with ⟨vs, b, tr', hf, hl, hrec, rfl⟩ | ⟨tr', hf, hrec, rfl⟩
      · refine ih hwf hrec a ?_ haf halt
        intro hmem
        exact hatr (by simp [hmem])
      · have har : a ≠ r := by
          intro hr; exact hatr (by simp [hr])
        have hanext : a ≠ H.next := Nat.ne_of_lt halt
        have h2get : (((H.alloc []).1).put r (assocSet s [Value.vSub H.next] d)).get a
            = H.get a := by
          rw [Heap.get_put_ne _ _ har, Heap.get_alloc_ne H [] hanext]
        have hwf2 : (((H.alloc []).1).put r (assocSet s [Value.vSub H.next] d)).wf := by
          have hr : r < H.next := Heap.get_some_lt hwf hg
          have hga : ((H.alloc []).1).get r = some d := by
            rw [Heap.get_alloc_ne H [] (Nat.ne_of_lt hr)]; exact hg
          exact Heap.wf_put (Heap.wf_alloc hwf []) hga
        have := ih hwf2 hrec a (by intro hmem; exact hatr (by simp [hmem])) haf
          (by simp [Heap.put_next, Heap.alloc_next]; omega)
        rw [this, h2get]

theorem writePathT_lookupName_outside {m : WMode} {v : Value} :
    ∀ {segs : List String} {H : Heap} {r : Nat} {H' : Heap} {tr : List (Nat × String)}
      {f : Nat} {n : String},
    H.wf → writePathT m H r segs v = .ok (H', tr, f, n) →
    ∀ a s0, (a, s0) ∉ tr → (a, s0) ≠ (f, n) → a < H.next →
      lookupName H' a s0 = lookupName H a s0 := by
  intro segs
  induction segs with
  | nil => intro H r H' tr f n _ h; rw [writePathT] at h; exact Except.noConfusion h
  | cons s rest ih =>
    intro H r H' tr f n hwf h a s0 hatr hafn halt
    cases rest with
    | nil =>
      obtain ⟨rfl, rfl, rfl, d, S, hg, rfl, -⟩ := writePathT_single_inv h
      by_cases har : a = f
      · subst har
        have hs0 : s0 ≠ n := by
          intro hs; exact hafn (by rw [hs])
        rw [lookupName_eq _ _ _ (H.get_put_self a _), lookupName_eq _ _ _ hg,
          assocFind_set_ne _ hs0]
      · unfold lookupName
        rw [Heap.get_put_ne H _ har]
    | cons s' rest' =>
      obtain ⟨d, hg, hcase⟩ := writePathT_cons_inv h
      rcases hcase with ⟨vs, b, tr', hf, hl, hrec, rfl⟩ | ⟨tr', hf, hrec, rfl⟩
      · refine ih hwf hrec a s0 ?_ hafn halt
        intro hmem
        exact hatr (List.mem_cons_of_mem _ hmem)
      · have hr : r < H.next := Heap.get_some_lt hwf hg
        have hga : ((H.alloc []).1).get r = some d := by
          rw [Heap.get_alloc_ne H [] (Nat.ne_of_lt hr)]; exact hg
        have hwf2 : (((H.alloc []).1).put r (assocSet s [Value.vSub H.next] d)).wf :=
          Heap.wf_put (Heap.wf_alloc hwf []) hga
        have hstep := ih hwf2 hrec a s0
          (by intro hmem; exact hatr (List.mem_cons_of_mem _ hmem)) hafn
          (by simp [Heap.put_next, Heap.alloc_next]; omega)
        rw [hstep]
        by_cases har : a = r
        · subst har
          have hs0 : s0 ≠ s := by
            intro hs
            exact hatr (by rw [hs]; exact List.mem_cons_self _ _)
          rw [lookupName_eq _ _ _ (Heap.get_put_self _ a _), assocFind_set_ne _ hs0,
            lookupName_eq _ _ _ hg]
        · have hanext : a ≠ H.next := Nat.ne_of_lt halt
          unfold lookupName
          rw [Heap.get_put_ne _ _ har, Heap.get_alloc_ne H [] hanext]

theorem writePathT_final {m : WMode} {v : Value} :
    ∀ {segs : List String} {H : Heap} {r : Nat} {H' : Heap} {tr : List (Nat × String)}
      {f : Nat} {n : String},
    writePathT m H r segs v = .ok (H', tr, f, n) →
    ∃ S, lookupName H' f n = some S ∧ lastVal S = some v ∧ (m = .replace → S = [v]) := by
  intro segs
  induction segs with
  | nil => intro H r H' tr f n h; rw [writePathT] at h; exact Except.noConfusion h
  | cons s rest ih =>
    intro H r H' tr f n h
    cases rest with
    | nil =>
      obtain ⟨rfl, rfl, rfl, d, S, hg, rfl, hcase⟩ := writePathT_single_inv h
      refine ⟨S, ?_, ?_, ?_⟩
      · rw [lookupName_eq _ _ _ (H.get_put_self f _), assocFind_set_self]
      · rcases hcase with ⟨-, rfl⟩ | ⟨vs, -, -, rfl⟩ | ⟨vs, w, -, -, -, rfl⟩
        · simp [lastVal]
        · simp [lastVal]
        · cases m with
          | replace => simp [modeSeq, lastVal]
          | append => exact lastVal_concat vs v
      · intro hm
        subst hm
        rcases hcase with ⟨-, rfl⟩ | ⟨vs, -, -, rfl⟩ | ⟨vs, w, -, -, -, rfl⟩ <;> rfl
    | cons s' rest' =>
      obtain ⟨d, hg, hcase⟩ := writePathT_cons_inv h
      rcases hcase with ⟨vs, b, tr', hf, hl, hrec, rfl⟩ | ⟨tr', hf, hrec, rfl⟩
      · exact ih hrec
      · exact ih hrec

theorem writePathT_readback {m : WMode} {v : Value} :
    ∀ {segs : List String} {H : Heap} {r : Nat} {H' : Heap} {tr : List (Nat × String)}
      {f : Nat} {n : String},
    H.wf → writePathT m H r segs v = .ok (H', tr, f, n) →
    (tr ++ [(f, n)]).Nodup →
    resolveLastT H' r segs = .ok (tr, f, n) := by
  intro segs
  induction segs with
  | nil => intro H r H' tr f n _ h; rw [writePathT] at h; exact Except.noConfusion h
  | cons s rest ih =>
    intro H r H' tr f n hwf h hnds
    cases rest with
    | nil =>
      obtain ⟨rfl, rfl, rfl, d, S, hg, rfl, -⟩ := writePathT_single_inv h
      exact resolveLastT_single _ f n
    | cons s' rest' =>
      obtain ⟨d, hg, hcase⟩ := writePathT_cons_inv h
      rcases hcase with ⟨vs, b, tr', hf, hl, hrec, rfl⟩ | ⟨tr', hf, hrec, rfl⟩
      · rw [List.cons_append, List.nodup_cons] at hnds
        obtain ⟨hni, hnd'⟩ := hnds
        have hnotr : (r, s) ∉ tr' := fun hmem => hni (List.mem_append_left _ hmem)
        have hnofn : (r, s) ≠ (f, n) := fun heq => hni (List.mem_append_right _ (by simp [heq]))
        have hres := ih hwf hrec hnd'
        have hr : r < H.next := Heap.get_some_lt hwf hg
        have hpres := writePathT_lookupName_outside hwf hrec r s hnotr hnofn hr
        have hlk : lookupName H' r s = some vs := by
          rw [hpres, lookupName_eq _ _ _ hg, hf]
        exact resolveLastT_cons_of hlk hl hres
      · rw [List.cons_append, List.nodup_cons] at hnds
        obtain ⟨hni, hnd'⟩ := hnds
        have hnotr : (r, s) ∉ tr' := fun hmem => hni (List.mem_append_left _ hmem)
        have hnofn : (r, s) ≠ (f, n) := fun heq => hni (List.mem_append_right _ (by simp [heq]))
        have hr : r < H.next := Heap.get_some_lt hwf hg
        have hga : ((H.alloc []).1).get r = some d := by
          rw [Heap.get_alloc_ne H [] (Nat.ne_of_lt hr)]; exact hg
        have hwf2 : (((H.alloc []).1).put r (assocSet s [Value.vSub H.next] d)).wf :=
          Heap.wf_put (Heap.wf_alloc hwf []) hga
        have hres := ih hwf2 hrec hnd'
        have hr2 : r < (((H.alloc []).1).put r (assocSet s [Value.vSub H.next] d)).next := by
          simp [Heap.put_next, Heap.alloc_next]; omega
        have hpres := writePathT_lookupName_outside hwf2 hrec r s hnotr hnofn hr2
        have hlk : lookupName H' r s = some [Value.vSub H.next] := by
          rw [hpres, lookupName_eq _ _ _ (Heap.get_put_self _ r _), assocFind_set_self]
        exact resolveLastT_cons_of hlk (by simp [lastVal]) hres

theorem writePathT_of_resolve {m : WMode} {v : Value} :
    ∀ {segs : List String} {H : Heap} {r : Nat} {tr : List (Nat × String)}
      {f : Nat} {n : String} {d : PolicyData} {vs : List Value} {w : Value},
    resolveLastT H r segs = .ok (tr, f, n) →
    H.get f = some d → assocFind n d = some vs → lastVal vs = some w →
    (Value.tag w = Value.tag v →
      writePathT m H r segs v = .ok (H.put f (assocSet n (modeSeq m vs v) d), tr, f, n)) ∧
    (Value.tag w ≠ Value.tag v → writePathT m H r segs v = .error .typeError) := by
  intro segs
  induction segs with
  | nil =>
    intro H r tr f n d vs w hres
    rw [resolveLastT] at hres
    exact Except.noConfusion hres
  | cons s rest ih =>
    intro H r tr f n d vs w hres hg hf hl
    cases rest with
    | nil =>
      rw [resolveLastT_single] at hres
      injection hres with h1
      injection h1 with htr h2
      injection h2 with hfin hn
      subst htr hfin hn
      constructor
      · intro htag
        rw [writePathT]
        simp only [hg, hf, hl, htag, if_pos]
      · intro htag
        rw [writePathT]
        simp only [hg, hf, hl, htag, if_neg, not_false_iff]
    | cons s' rest' =>
      obtain ⟨vs0, b, tr', h1, h2, h3, rfl⟩ := resolveLastT_cons_inv hres
      obtain ⟨d0, hg0, hf0⟩ := lookupName_some h1
      obtain ⟨ihok, iherr⟩ := ih h3 hg hf hl
      constructor
      · intro htag
        rw [writePathT]
        simp only [hg0, hf0, h2, ihok htag]
      · intro htag
        rw [writePathT]
        simp only [hg0, hf0, h2, iherr htag]

theorem seqWT_of_dataWT {d : PolicyData} (hwt : DataWT d) {n : String} {vs : List Value}
    (hf : assocFind n d = some vs) : ∀ a ∈ vs, ∀ b ∈ vs, Value.tag a = Value.tag b := by
  intro a ha b hb
  exact hwt _ (assocFind_some_mem hf) a ha b hb

theorem dataWT_assocSet {d : PolicyData} (hwt : DataWT d) {n : String} {S : List Value}
    (hS : ∀ a ∈ S, ∀ b ∈ S, Value.tag a = Value.tag b) : DataWT (assocSet n S d) := by
  intro e he
  rcases mem_assocSet he with rfl | he'
  · exact hS
  · exact hwt _ he'

theorem heapWT_put {H : Heap} (hwt : HeapWT H) {a : Nat} {d : PolicyData}
    (hd : DataWT d) : HeapWT (H.put a d) := by
  intro p hp
  rcases mem_assocSet hp with rfl | hp'
  · exact hd
  · exact hwt _ hp'

theorem heapWT_alloc {H : Heap} (hwt : HeapWT H) {d : PolicyData} (hd : DataWT d) :
    HeapWT ((H.alloc d).1) := by
  intro p hp
  rcases List.mem_cons.mp hp with rfl | hp'
  · exact hd
  · exact hwt _ hp'

theorem dataWT_of_get {H : Heap} (hwt : HeapWT H) {a : Nat} {d : PolicyData}
    (h : H.get a = some d) : DataWT d :=
  hwt _ (assocFind_some_mem h)

theorem writePathT_WT {m : WMode} {v : Value} :
    ∀ {segs : List String} {H : Heap} {r : Nat} {H' : Heap} {tr : List (Nat × String)}
      {f : Nat} {n : String},
    HeapWT H → writePathT m H r segs v = .ok (H', tr, f, n) → HeapWT H' := by
  intro segs
  induction segs with
  | nil => intro H r H' tr f n _ h; rw [writePathT] at h; exact Except.noConfusion h
  | cons s rest ih =>
    intro H r H' tr f n hwt h
    cases rest with
    | nil =>
      obtain ⟨rfl, rfl, rfl, d, S, hg, rfl, hcase⟩ := writePathT_single_inv h
      have hd : DataWT d := dataWT_of_get hwt hg
      refine heapWT_put hwt (dataWT_assocSet hd ?_)
      rcases hcase with ⟨-, rfl⟩ | ⟨vs, -, -, rfl⟩ | ⟨vs, w, hfv, hlv, htag, rfl⟩
      · intro a ha b hb; simp at ha hb; rw [ha, hb]
      · intro a ha b hb; simp at ha hb; rw [ha, hb]
      · cases m with
        | replace =>
          intro a ha b hb; simp [modeSeq] at ha hb; rw [ha, hb]
        | append =>
          have hvs := seqWT_of_dataWT hd hfv
          have hw : w ∈ vs := lastVal_mem hlv
          intro a ha b hb
          simp only [modeSeq, List.mem_append, List.mem_singleton] at ha hb
          rcases ha with ha | rfl <;> rcases hb with hb | rfl
          · exact hvs a ha b hb
          · exact (hvs a ha w hw).trans htag
          · exact (htag.symm.trans (hvs w hw b hb))
          · rfl
    | cons s' rest' =>
      obtain ⟨d, hg, hcase⟩ := writePathT_cons_inv h
      rcases hcase with ⟨vs, b, tr', hf, hl, hrec, rfl⟩ | ⟨tr', hf, hrec, rfl⟩
      · exact ih hwt hrec
      · have hd : DataWT d := dataWT_of_get hwt hg
        have hwt2 : HeapWT ((((H.alloc []).1)).put r (assocSet s [Value.vSub H.next] d)) := by
          refine heapWT_put (heapWT_alloc hwt ?_) (dataWT_assocSet hd ?_)
          · intro e he; simp at he
          · intro a ha b hb; simp at ha hb; rw [ha, hb]
        exact ih hwt2 hrec

/-!  Lemmas about heap extensions and the deep copy. -/

theorem heapExt_refl (H : Heap) : HeapExt H H :=
  ⟨Nat.le_refl _, [], rfl, by intro p hp; cases hp⟩

theorem heapExt_trans {H1 H2 H3 : Heap} (h12 : HeapExt H1 H2) (h23 : HeapExt H2 H3) :
    HeapExt H1 H3 := by
  obtain ⟨hn12, Δ1, hc12, hΔ1⟩ := h12
  obtain ⟨hn23, Δ2, hc23, hΔ2⟩ := h23
  refine ⟨Nat.le_trans hn12 hn23, Δ2 ++ Δ1, by rw [hc23, hc12, List.append_assoc], ?_⟩
  intro p hp
  rcases List.mem_append.mp hp with hp2 | hp1
  · obtain ⟨⟨hk1, hk2⟩, htg⟩ := hΔ2 p hp2
    refine ⟨⟨Nat.le_trans hn12 hk1, hk2⟩, ?_⟩
    intro e he v hv c hc
    obtain ⟨hc1, hc2⟩ := htg e he v hv c hc
    exact ⟨Nat.le_trans hn12 hc1, hc2⟩
  · obtain ⟨⟨hk1, hk2⟩, htg⟩ := hΔ1 p hp1
    refine ⟨⟨hk1, Nat.lt_of_lt_of_le hk2 hn23⟩, ?_⟩
    intro e he v hv c hc
    obtain ⟨hc1, hc2⟩ := htg e he v hv c hc
    exact ⟨hc1, Nat.lt_of_lt_of_le hc2 hn23⟩

theorem heapExt_get_old {H H' : Heap} (hext : HeapExt H H') (hwf : H.wf)
    {b : Nat} (hb : b < H.next) : H'.get b = H.get b := by
  obtain ⟨hn, Δ, hc, hΔ⟩ := hext
  unfold Heap.get
  rw [hc]
  refine assocFind_append_of_no_key ?_
  intro p hp
  have := (hΔ p hp).1.1
  omega

theorem heapExt_wf {H H' : Heap} (hext : HeapExt H H') (hwf : H.wf) : H'.wf := by
  obtain ⟨hn, Δ, hc, hΔ⟩ := hext
  intro p hp
  rw [hc] at hp
  rcases List.mem_append.mp hp with hp | hp
  · exact (hΔ p hp).1.2
  · exact Nat.lt_of_lt_of_le (hwf p hp) hn

theorem heapExt_regionClosed {H H' : Heap} (hext : HeapExt H H') (hwf : H.wf) :
    regionClosed H' H.next H'.next := by
  obtain ⟨hn, Δ, hcells, hΔ⟩ := hext
  intro b d hlo hhi hget e he v hv c hc
  have hmem : (b, d) ∈ Δ ++ H.cells := by
    have hm : (b, d) ∈ H'.cells := assocFind_some_mem hget
    rwa [hcells] at hm
  rcases List.mem_append.mp hmem with hmem | hmem
  · exact (hΔ (b, d) hmem).2 e he v hv c hc
  · exact absurd (hwf (b, d) hmem) (by omega)

theorem copyDeepSeqF_sub (cd : Heap → Nat → Option (Heap × Nat)) (H : Heap) (b : Nat)
    (t : List Value) :
    copyDeepSeqF cd H (Value.vSub b :: t) =
      match cd H b with
      | none => none
      | some (H1, b1) =>
        match copyDeepSeqF cd H1 t with
        | none => none
        | some (H2, t2) => some (H2, Value.vSub b1 :: t2) := rfl

theorem copyDeepSeqF_scalar (cd : Heap → Nat → Option (Heap × Nat)) (H : Heap) {v : Value}
    (t : List Value) (hv : Value.tag v ≠ Tag.tSub) :
    copyDeepSeqF cd H (v :: t) =
      match copyDeepSeqF cd H t with
      | none => none
      | some (H2, t2) => some (H2, v :: t2) := by
  cases v with
  | vSub b => exact absurd rfl hv
  | vBool x => rfl
  | vInt x => rfl
  | vDouble x => rfl
  | vString x => rfl
  | vFile x => rfl

theorem copyDeepSeqF_spec {cd : Heap → Nat → Option (Heap × Nat)} (hcd : DeepCopies cd) :
    ∀ {vs : List Value} {H H1 : Heap} {vs1 : List Value},
    copyDeepSeqF cd H vs = some (H1, vs1) →
    HeapExt H H1 ∧
    (∀ v ∈ vs1, ∀ c, v = Value.vSub c → H.next ≤ c ∧ c < H1.next) ∧
    (allNonSub vs → vs1 = vs) := by
  intro vs
  induction vs with
  | nil =>
    intro H H1 vs1 h
    rw [show copyDeepSeqF cd H [] = some (H, []) from rfl] at h
    injection h with h1
    injection h1 with hH hvs
    subst hH hvs
    refine ⟨heapExt_refl H, ?_, fun _ => rfl⟩
    intro v hv
    cases hv
  | cons v t ih =>
    intro H H1 vs1 h
    by_cases hv : Value.tag v = Tag.tSub
    · obtain ⟨b, rfl⟩ : ∃ b, v = Value.vSub b := by
        cases v with
        | vSub b => exact ⟨b, rfl⟩
        | vBool x => simp [Value.tag] at hv
        | vInt x => simp [Value.tag] at hv
        | vDouble x => simp [Value.tag] at hv
        | vString x => simp [Value.tag] at hv
        | vFile x => simp [Value.tag] at hv
      rw [copyDeepSeqF_sub] at h
      cases hcdb : cd H b with
      | none => simp only [hcdb] at h; exact Option.noConfusion h
      | some p =>
        obtain ⟨Hm, b1⟩ := p
        simp only [hcdb] at h
        cases hcs : copyDeepSeqF cd Hm t with
        | none => simp only [hcs] at h; exact Option.noConfusion h
        | some q =>
          obtain ⟨H2, t2⟩ := q
          simp only [hcs] at h
          injection h with h1
          injection h1 with hH hvs
          subst hH hvs
          obtain ⟨hext1, hb1lo, hb1hi, -⟩ := hcd H b Hm b1 hcdb
          obtain ⟨hext2, htg2, hns2⟩ := ih hcs
          refine ⟨heapExt_trans hext1 hext2, ?_, ?_⟩
          · intro u hu c hc
            rcases List.mem_cons.mp hu with rfl | hu'
            · cases hc
              exact ⟨hb1lo, Nat.lt_of_lt_of_le hb1hi hext2.1⟩
            · obtain ⟨hc1, hc2⟩ := htg2 u hu' c hc
              exact ⟨Nat.le_trans hext1.1 hc1, hc2⟩
          · intro hns
            exact absurd (hns _ (List.mem_cons_self _ _)) (by simp [Value.tag])
    · rw [copyDeepSeqF_scalar cd H t hv] at h
      cases hcs : copyDeepSeqF cd H t with
      | none => simp only [hcs] at h; exact Option.noConfusion h
      | some q =>
        obtain ⟨H2, t2⟩ := q
        simp only [hcs] at h
        injection h with h1
        injection h1 with hH hvs
        subst hH hvs
        obtain ⟨hext2, htg2, hns2⟩ := ih hcs
        refine ⟨hext2, ?_, ?_⟩
        · intro u hu c hc
          rcases List.mem_cons.mp hu with rfl | hu'
          · subst hc; exact absurd rfl hv
          · exact htg2 u hu' c hc
        · intro hns
          rw [hns2 (fun u hu => hns u (List.mem_cons_of_mem _ hu))]

theorem copyDeepDataF_spec {cd : Heap → Nat → Option (Heap × Nat)} (hcd : DeepCopies cd) :
    ∀ {d : PolicyData} {H H1 : Heap} {d1 : PolicyData},
    copyDeepDataF cd H d = some (H1, d1) →
    HeapExt H H1 ∧
    (∀ e ∈ d1, ∀ v ∈ e.2, ∀ c, v = Value.vSub c → H.next ≤ c ∧ c < H1.next) ∧
    (∀ nm vs, assocFind nm d = some vs → allNonSub vs → assocFind nm d1 = some vs) := by
  intro d
  induction d with
  | nil =>
    intro H H1 d1 h
    rw [show copyDeepDataF cd H [] = some (H, []) from rfl] at h
    injection h with h1
    injection h1 with hH hd
    subst hH hd
    refine ⟨heapExt_refl H, ?_, ?_⟩
    · intro e he
      cases he
    · intro nm vs hfind
      simp [assocFind] at hfind
  | cons e t ih =>
    intro H H1 d1 h
    obtain ⟨n, vs⟩ := e
    rw [copyDeepDataF] at h
    cases hcs : copyDeepSeqF cd H vs with
    | none => simp only [hcs] at h; exact Option.noConfusion h
    | some p =>
      obtain ⟨Hm, vs1⟩ := p
      simp only [hcs] at h
      cases hcd2 : copyDeepDataF cd Hm t with
      | none => simp only [hcd2] at h; exact Option.noConfusion h
      | some q =>
        obtain ⟨H2, t2⟩ := q
        simp only [hcd2] at h
        injection h with h1
        injection h1 with hH hd
        subst hH hd
        obtain ⟨hext1, htg1, hns1⟩ := copyDeepSeqF_spec hcd hcs
        obtain ⟨hext2, htg2, hpres2⟩ := ih hcd2
        refine ⟨heapExt_trans hext1 hext2, ?_, ?_⟩
        · intro e2 he2 v hv c hc
          rcases List.mem_cons.mp he2 with rfl | he2'
          · obtain ⟨hc1, hc2⟩ := htg1 v hv c hc
            exact ⟨hc1, Nat.lt_of_lt_of_le hc2 hext2.1⟩
          · obtain ⟨hc1, hc2⟩ := htg2 e2 he2' v hv c hc
            exact ⟨Nat.le_trans hext1.1 hc1, hc2⟩
        · intro nm ws hfind hns
          by_cases hn : n = nm
          · subst hn
            simp [assocFind] at hfind
            subst hfind
            simp [assocFind, hns1 hns]
          · simp only [assocFind, hn, if_neg, not_false_iff] at hfind ⊢
            exact hpres2 nm ws hfind hns

theorem copyDeep_spec : ∀ fu : Nat, DeepCopies (copyDeep fu) := by
  intro fu
  induction fu with
  | zero =>
    intro H r H' r' h
    rw [copyDeep] at h
    exact Option.noConfusion h
  | succ fu ih =>
    intro H r H' r' h
    rw [copyDeep] at h
    cases hg : H.get r with
    | none => simp only [hg] at h; exact Option.noConfusion h
    | some d =>
      simp only [hg] at h
      cases hdd : copyDeepDataF (copyDeep fu) H d with
      | none => simp only [hdd] at h; exact Option.noConfusion h
      | some p =>
        obtain ⟨H1, d1⟩ := p
        simp only [hdd] at h
        injection h with h1
        injection h1 with hH hr
        obtain ⟨hext1, htg1, hpres1⟩ := copyDeepDataF_spec ih hdd
        obtain ⟨hn1, Δ1, hc1, hΔ1⟩ := hext1
        subst hH hr
        have hext : HeapExt H (H1.alloc d1).1 := by
          refine ⟨by simp [Heap.alloc_next]; omega, (H1.next, d1) :: Δ1, ?_, ?_⟩
          · simp [Heap.alloc, hc1]
          · intro p hp
            rcases List.mem_cons.mp hp with rfl | hp'
            · refine ⟨⟨hn1, by simp [Heap.alloc_next]⟩, ?_⟩
              intro e he v hv c hc
              obtain ⟨hc1', hc2'⟩ := htg1 e he v hv c hc
              exact ⟨hc1', by simp [Heap.alloc_next]; omega⟩
            · obtain ⟨⟨hk1, hk2⟩, htg⟩ := hΔ1 p hp'
              refine ⟨⟨hk1, by simp [Heap.alloc_next]; omega⟩, ?_⟩
              intro e he v hv c hc
              obtain ⟨hc1', hc2'⟩ := htg e he v hv c hc
              exact ⟨hc1', by simp [Heap.alloc_next]; omega⟩
        refine ⟨hext, hn1, by simp [Heap.alloc_next], ?_⟩
        intro d0 hd0
        injection hd0 with hd0
        subst hd0
        exact ⟨d1, Heap.get_alloc_self H1 d1, hpres1⟩

/-!  Lemmas supporting materialization of missing dotted paths. -/

theorem writePathT_fresh_ok {m : WMode} {v : Value} :
    ∀ {segs : List String} {H : Heap} {b : Nat},
    segs ≠ [] → H.wf → H.get b = some [] →
    ∃ H' tr f n, writePathT m H b segs v = .ok (H', tr, f, n) ∧
      List.Chain' (· < ·) (tr.map Prod.fst ++ [f]) ∧
      (tr.map Prod.fst ++ [f]).head? = some b := by
  intro segs
  induction segs with
  | nil => intro H b hne _ _; exact absurd rfl hne
  | cons s rest ih =>
    intro H b hne hwf hget
    cases rest with
    | nil =>
      refine ⟨H.put b (assocSet s [v] []), [], b, s, ?_, ?_, ?_⟩
      · rw [writePathT]
        simp only [hget, assocFind]
      · simp
      · simp
    | cons s' rest' =>
      have hb : b < H.next := Heap.get_some_lt hwf hget
      have hga : ((H.alloc []).1).get b = some [] := by
        rw [Heap.get_alloc_ne H [] (Nat.ne_of_lt hb)]
        exact hget
      have hg2 : (((H.alloc []).1).put b (assocSet s [Value.vSub H.next] [])).get H.next
          = some [] := by
        rw [Heap.get_put_ne _ _ (Nat.ne_of_lt hb).symm]
        exact Heap.get_alloc_self H []
      have hwf2 : (((H.alloc []).1).put b (assocSet s [Value.vSub H.next] [])).wf :=
        Heap.wf_put (Heap.wf_alloc hwf []) hga
      obtain ⟨H', tr', f, n, hok, hchain, hhead⟩ :=
        ih (by simp) hwf2 hg2
      refine ⟨H', (b, s) :: tr', f, n, ?_, ?_, ?_⟩
      · rw [writePathT]
        simp only [hget, assocFind, show (H.alloc []).2 = H.next from rfl, hok]
      · rw [List.map_cons, List.cons_append]
        rw [List.chain'_cons']
        refine ⟨?_, hchain⟩
        intro y hy
        rw [hhead] at hy
        injection hy with hy
        subst hy
        have : (((H.alloc []).1).put b (assocSet s [Value.vSub H.next] [])).next
            = H.next + 1 := rfl
        omega
      · simp

theorem nodup_of_chain_fst {tr : List (Nat × String)} {f : Nat} {n : String}
    (hchain : List.Chain' (· < ·) (tr.map Prod.fst ++ [f])) :
    (tr ++ [(f, n)]).Nodup := by
  have hmap : (tr ++ [(f, n)]).map Prod.fst = tr.map Prod.fst ++ [f] := by simp
  have hpw : List.Pairwise (· < ·) ((tr ++ [(f, n)]).map Prod.fst) := by
    rw [hmap]
    exact List.chain'_iff_pairwise.mp hchain
  have hnd : ((tr ++ [(f, n)]).map Prod.fst).Nodup :=
    hpw.imp (fun h => Nat.ne_of_lt h)
  exact hnd.of_map

theorem walkT_take {H : Heap} :
    ∀ {segs : List String} {r : Nat} {tr : List (Nat × String)} {z : Nat},
    walkT H r segs = .ok (tr, z) →
    ∀ j, walkT H r (segs.take j) = .ok (tr.take j, ((tr.drop j).map Prod.fst).headD z) := by
  intro segs
  induction segs with
  | nil =>
    intro r tr z h j
    rw [walkT_nil] at h
    cases h
    simpa using walkT_nil H r
  | cons s rest ih =>
    intro r tr z h j
    obtain ⟨vs, b, tr', h1, h2, h3, rfl⟩ := walkT_cons_inv h
    cases j with
    | zero => simpa using walkT_nil H r
    | succ j =>
      rw [List.take_succ_cons]
      have := ih h3 j
      simpa using walkT_cons_of h1 h2 this

theorem walkT_drop {H : Heap} :
    ∀ {segs : List String} {r : Nat} {tr : List (Nat × String)} {z : Nat},
    walkT H r segs = .ok (tr, z) →
    ∀ j, walkT H (((tr.drop j).map Prod.fst).headD z) (segs.drop j) = .ok (tr.drop j, z) := by
  intro segs
  induction segs with
  | nil =>
    intro r tr z h j
    rw [walkT_nil] at h
    cases h
    simpa using walkT_nil H r
  | cons s rest ih =>
    intro r tr z h j
    obtain ⟨vs, b, tr', h1, h2, h3, rfl⟩ := walkT_cons_inv h
    cases j with
    | zero =>
      simpa using walkT_cons_of h1 h2 h3
    | succ j =>
      rw [List.drop_succ_cons, List.drop_succ_cons]
      exact ih h3 j

theorem getSeq_empty_nnf :
    ∀ {segs : List String}, segs ≠ [] →
    getSeq emptyPolicy 0 segs = .error .nameNotFound := by
  intro segs hne
  cases segs with
  | nil => exact absurd rfl hne
  | cons s rest =>
    cases rest with
    | nil =>
      rw [getSeq_eq_lookupName, resolveLastT_single]
      simp [lookupName, emptyPolicy, Heap.get, assocFind]
    | cons s' rest' =>
      rw [getSeq_eq_lookupName, resolveLastT]
      simp [emptyPolicy, Heap.get, assocFind]

/-!  Lemmas about the PAF recognizer. -/

theorem isWsC_cases {c : Char} (h : isWsC c = true) :
    c = ' ' ∨ c = '\t' ∨ c = '\n' ∨ c = '\r' ∨ c = '\x0b' ∨ c = '\x0c' := by
  simp only [isWsC, Bool.or_eq_true, beq_iff_eq] at h
  tauto

theorem lowEq_not_ws {c x : Char} (h : lowEq c x = true) (hx : isWsC x = false) :
    isWsC c = false := by
  by_contra hc
  rw [Bool.not_eq_false] at hc
  rcases isWsC_cases hc with rfl | rfl | rfl | rfl | rfl | rfl <;>
    · simp only [lowEq, beq_iff_eq] at h
      rw [← h] at hx
      revert hx
      decide

theorem skipWsL_append_ws {w : List Char} (hw : ∀ c ∈ w, isWsC c = true) (t : List Char) :
    skipWsL (w ++ t) = skipWsL t := by
  induction w with
  | nil => rfl
  | cons c w' ih =>
    rw [List.cons_append, skipWsL, if_pos (hw c (List.mem_cons_self _ _))]
    exact ih (fun c hc => hw c (List.mem_cons_of_mem _ hc))

theorem skipWsL_cons_not_ws {c : Char} (hc : isWsC c = false) (t : List Char) :
    skipWsL (c :: t) = c :: t := by
  rw [skipWsL, if_neg (by rw [hc]; exact Bool.false_ne_true)]

theorem pafTail_run {rest : List Char} :
    ∀ {l : List Char}, (∀ c ∈ l, isWsC c = true ∨ isWordC c = true) →
    pafTail (l ++ '?' :: '>' :: rest) = true := by
  intro l
  induction l with
  | nil =>
    intro _
    rw [List.nil_append, pafTail]
    simp [show (isWsC '?' || isWordC '?') = false from by decide]
  | cons c l' ih =>
    intro hl
    rw [List.cons_append, pafTail]
    have hc : (isWsC c || isWordC c) = true := by
      rcases hl c (List.mem_cons_self _ _) with h | h <;> simp [h]
    rw [if_pos hc]
    exact ih (fun c hc => hl c (List.mem_cons_of_mem _ hc))

theorem searchNL_eq_any (m : List Char → Bool) :
    ∀ s : List Char, searchNL m s = (lineSuffixes s).any m := by
  intro s
  induction s with
  | nil => rfl
  | cons c t ih =>
    rw [searchNL, lineSuffixes, ih]
    by_cases hc : c = '\n'
    · subst hc
      simp
    · have : (c == '\n') = false := by simp [hc]
      simp [this, hc]

theorem regexSearchML_eq_any (m : List Char → Bool) (s : List Char) :
    regexSearchML m s = (s :: lineSuffixes s).any m := by
  rw [regexSearchML, searchNL_eq_any, List.any_cons]

theorem any_ext {α : Type} (l : List α) (f g : α → Bool) (h : ∀ x, f x = g x) :
    l.any f = l.any g := by
  induction l with
  | nil => rfl
  | cons x t ih => rw [List.any_cons, List.any_cons, h x, ih]

/-!  The claims. -/

/-- C3: for every Policy and name, after set(name, v) the scalar accessor
returns v and valueCount(name) = 1; in particular when the name already
held values of the same tag, set replaces the entire existing sequence
with the single-element sequence of the new value. -/
theorem claim_C3 (H : Heap) (r : Nat) (name : String) (segs : List String) (v : Value)
    (H' : Heap) (tr : List (Nat × String)) (f : Nat) (n : String)
    (hwf : H.wf)
    (hsplit : splitName name = segs)
    (hset : writePathT .replace H r segs v = .ok (H', tr, f, n))
    (hnd : (tr ++ [(f, n)]).Nodup) :
    setP H r name v = .ok H' ∧
    getSeq H' r segs = .ok [v] ∧
    valueCount H' r name = 1 ∧
    (∀ s, v = .vString s → getString H' r name = .ok s) ∧
    (∀ i, v = .vInt i → getInt H' r name = .ok i) ∧
    (∀ b, v = .vBool b → getBool H' r name = .ok b) ∧
    (∀ q, v = .vDouble q → getDouble H' r name = .ok q) := by
  have hres := writePathT_readback hwf hset hnd
  obtain ⟨S, hlk, hlast, hrepl⟩ := writePathT_final hset
  have hS : S = [v] := hrepl rfl
  subst hS
  have hseq : getSeq H' r segs = .ok [v] :=
    getSeq_of_resolve hres hlk (by simp)
  refine ⟨?_, hseq, ?_, ?_, ?_, ?_, ?_⟩
  · rw [setP, hsplit, hset]
  · rw [valueCount, hsplit, hseq]
    rfl
  · intro s hv; subst hv
    rw [getString, hsplit, hseq]
    rfl
  · intro i hv; subst hv
    rw [getInt, hsplit, hseq]
    rfl
  · intro b hv; subst hv
    rw [getBool, hsplit, hseq]
    rfl
  · intro q hv; subst hv
    rw [getDouble, hsplit, hseq]
    rfl

/-- Witness for C3 at a concrete input: setting a.b to 7 on an empty
Policy materializes the path and the accessors read it back. -/
theorem claim_C3_witness :
    setP emptyPolicy 0 "a.b" (.vInt 7) =
      .ok (⟨2, [(1, [("b", [Value.vInt 7])]), (0, [("a", [Value.vSub 1])])]⟩ : Heap) ∧
    valueCount (⟨2, [(1, [("b", [Value.vInt 7])]), (0, [("a", [Value.vSub 1])])]⟩ : Heap)
      0 "a.b" = 1 ∧
    getInt (⟨2, [(1, [("b", [Value.vInt 7])]), (0, [("a", [Value.vSub 1])])]⟩ : Heap)
      0 "a.b" = .ok 7 := by
  have h := claim_C3 emptyPolicy 0 "a.b" ["a", "b"] (.vInt 7)
    (⟨2, [(1, [("b", [Value.vInt 7])]), (0, [("a", [Value.vSub 1])])]⟩ : Heap)
    [(0, "a")] 1 "b" (by decide) (by decide) (by decide) (by decide)
  exact ⟨h.1, h.2.2.1, h.2.2.2.2.1 7 rfl⟩

/-- C4: after set(name, v1) then add(name, v2) of the same tag,
valueCount is 2, the scalar accessor returns v2 (the back of the
sequence), and the array accessor returns the full sequence in insertion
order. -/
theorem claim_C4 (H : Heap) (r : Nat) (name : String) (segs : List String) (v1 v2 : Value)
    (H1 : Heap) (tr : List (Nat × String)) (f : Nat) (n : String)
    (H2 : Heap) (tr2 : List (Nat × String)) (f2 : Nat) (n2 : String)
    (hwf : H.wf)
    (hsplit : splitName name = segs)
    (hset : writePathT .replace H r segs v1 = .ok (H1, tr, f, n))
    (hnd : (tr ++ [(f, n)]).Nodup)
    (htag : Value.tag v2 = Value.tag v1)
    (hadd : writePathT .append H1 r segs v2 = .ok (H2, tr2, f2, n2)) :
    addP H1 r name v2 = .ok H2 ∧
    valueCount H2 r name = 2 ∧
    getSeq H2 r segs = .ok [v1, v2] ∧
    (∀ s, v2 = .vString s → getString H2 r name = .ok s) ∧
    (∀ i, v2 = .vInt i → getInt H2 r name = .ok i) ∧
    (∀ s1 s2, v1 = .vString s1 → v2 = .vString s2 →
      getStringArray H2 r name = .ok [s1, s2]) := by
  have hres1 := writePathT_readback hwf hset hnd
  obtain ⟨S, hlk, hlast, hrepl⟩ := writePathT_final hset
  have hS : S = [v1] := hrepl rfl
  subst hS
  obtain ⟨d1, hg1, hf1⟩ := lookupName_some hlk
  have hlast1 : lastVal [v1] = some v1 := by simp [lastVal]
  have hw6 := (@writePathT_of_resolve WMode.append v2 _ _ _ _ _ _ _ _ _
    hres1 hg1 hf1 hlast1).1 htag.symm
  rw [hw6] at hadd
  injection hadd with hadd1
  injection hadd1 with hH2 hadd2
  injection hadd2 with htr2 hadd3
  injection hadd3 with hf2 hn2
  subst hH2 htr2 hf2 hn2
  have hwf1 : H1.wf := writePathT_wf hwf hset
  have hres2 := writePathT_readback hwf1 hw6 hnd
  have hlk2 : lookupName (H1.put f (assocSet n (modeSeq .append [v1] v2) d1)) f n
      = some [v1, v2] := by
    rw [lookupName_eq _ _ _ (Heap.get_put_self H1 f _), assocFind_set_self]
    rfl
  have hseq : getSeq (H1.put f (assocSet n (modeSeq .append [v1] v2) d1)) r segs
      = .ok [v1, v2] :=
    getSeq_of_resolve hres2 hlk2 (by simp)
  refine ⟨?_, ?_, hseq, ?_, ?_, ?_⟩
  · rw [addP, hsplit, hw6]
  · rw [valueCount, hsplit, hseq]
    rfl
  · intro s hv; subst hv
    rw [getString, hsplit, hseq]
    simp [lastVal]
  · intro i hv; subst hv
    rw [getInt, hsplit, hseq]
    simp [lastVal]
  · intro s1 s2 hv1 hv2; subst hv1 hv2
    rw [getStringArray, hsplit, hseq]
    rfl

/-- Witness for C4 at a concrete input: setting then adding two strings
under one name yields the two-element sequence, count 2, and a scalar
read of the most recently appended element. -/
theorem claim_C4_witness :
    valueCount (⟨1, [(0, [("doall", [Value.vString "duh", Value.vString "never"])])]⟩ : Heap)
      0 "doall" = 2 ∧
    getSeq (⟨1, [(0, [("doall", [Value.vString "duh", Value.vString "never"])])]⟩ : Heap)
      0 ["doall"] = .ok [.vString "duh", .vString "never"] ∧
    getString (⟨1, [(0, [("doall", [Value.vString "duh", Value.vString "never"])])]⟩ : Heap)
      0 "doall" = .ok "never" ∧
    getStringArray (⟨1, [(0, [("doall", [Value.vString "duh", Value.vString "never"])])]⟩ : Heap)
      0 "doall" = .ok ["duh", "never"] := by
  have h := claim_C4 emptyPolicy 0 "doall" ["doall"] (.vString "duh") (.vString "never")
    (⟨1, [(0, [("doall", [Value.vString "duh"])])]⟩ : Heap) [] 0 "doall"
    (⟨1, [(0, [("doall", [Value.vString "duh", Value.vString "never"])])]⟩ : Heap) [] 0 "doall"
    (by decide) (by decide) (by decide) (by decide) (by decide) (by decide)
  exact ⟨h.2.1, h.2.2.1, h.2.2.2.1 "never" rfl, h.2.2.2.2.2 "duh" "never" rfl rfl⟩

/-- C5: for every name never written -- every name on a freshly created
empty Policy, and more generally any name that fails to resolve,
including dotted paths with missing intermediate segments -- the exists
probe is false, valueCount is 0 and every isX probe is false; these
probes are total functions and so never fail; getTypeInfo on such a name
fails with NameNotFound. -/
theorem claim_C5 (name : String) (segs : List String)
    (hsplit : splitName name = segs) (hne : segs ≠ []) :
    (existsP emptyPolicy 0 name = false ∧ valueCount emptyPolicy 0 name = 0 ∧
     isBool emptyPolicy 0 name = false ∧ isInt emptyPolicy 0 name = false ∧
     isDouble emptyPolicy 0 name = false ∧ isString emptyPolicy 0 name = false ∧
     isPolicy emptyPolicy 0 name = false ∧ isFile emptyPolicy 0 name = false ∧
     getTypeInfo emptyPolicy 0 name = .error .nameNotFound) ∧
    (∀ (H : Heap) (r : Nat), getSeq H r segs = .error .nameNotFound →
      existsP H r name = false ∧ valueCount H r name = 0 ∧
      isBool H r name = false ∧ isInt H r name = false ∧
      isDouble H r name = false ∧ isString H r name = false ∧
      isPolicy H r name = false ∧ isFile H r name = false ∧
      getTypeInfo H r name = .error .nameNotFound) := by
  have general : ∀ (H : Heap) (r : Nat), getSeq H r segs = .error .nameNotFound →
      existsP H r name = false ∧ valueCount H r name = 0 ∧
      isBool H r name = false ∧ isInt H r name = false ∧
      isDouble H r name = false ∧ isString H r name = false ∧
      isPolicy H r name = false ∧ isFile H r name = false ∧
      getTypeInfo H r name = .error .nameNotFound := by
    intro H r hseq
    refine ⟨?_, ?_, ?_, ?_, ?_, ?_, ?_, ?_, ?_⟩
    · rw [existsP, hsplit, hseq]
    · rw [valueCount, hsplit, hseq]
    · rw [isBool, isTag, hsplit, hseq]
    · rw [isInt, isTag, hsplit, hseq]
    · rw [isDouble, isTag, hsplit, hseq]
    · rw [isString, isTag, hsplit, hseq]
    · rw [isPolicy, isTag, hsplit, hseq]
    · rw [isFile, isTag, hsplit, hseq]
    · rw [getTypeInfo, hsplit, hseq]
  exact ⟨general emptyPolicy 0 (getSeq_empty_nnf hne), general⟩

/-- Witness for C5 at a concrete input: the probes on the names of the
empty-policy test of Policy_1.cc. -/
theorem claim_C5_witness :
    existsP emptyPolicy 0 "foo" = false ∧
    valueCount emptyPolicy 0 "foo.bar" = 0 ∧
    isInt emptyPolicy 0 "foo" = false ∧
    getTypeInfo emptyPolicy 0 "foo" = .error .nameNotFound ∧
    valueCount (⟨1, [(0, [("doall", [Value.vString "true"])])]⟩ : Heap) 0 "foo.bar" = 0 := by
  have h1 := claim_C5 "foo" ["foo"] (by decide) (by decide)
  have h2 := claim_C5 "foo.bar" ["foo", "bar"] (by decide) (by decide)
  have h3 := (claim_C5 "foo.bar" ["foo", "bar"] (by decide) (by decide)).2
    (⟨1, [(0, [("doall", [Value.vString "true"])])]⟩ : Heap) 0 (by decide)
  exact ⟨h1.1.1, h2.1.2.1, h1.1.2.2.2.1, h1.1.2.2.2.2.2.2.2.2, h3.2.1⟩

/-- C6: a scalar read on a name present under a different tag fails with
TypeError; the defaulted form also fails with TypeError when the name is
present under the wrong tag; and the defaulted form on an absent name
returns the default without error. -/
theorem claim_C6 (H : Heap) (r : Nat) (name : String) (segs : List String)
    (hsplit : splitName name = segs) :
    (∀ vs w, getSeq H r segs = .ok vs → lastVal vs = some w →
      (Value.tag w ≠ .tInt → getInt H r name = .error .typeError ∧
        ∀ dflt, getIntDef H r name dflt = .error .typeError) ∧
      (Value.tag w ≠ .tString → getString H r name = .error .typeError ∧
        ∀ dflt, getStringDef H r name dflt = .error .typeError) ∧
      (Value.tag w ≠ .tBool → getBool H r name = .error .typeError ∧
        ∀ dflt, getBoolDef H r name dflt = .error .typeError) ∧
      (Value.tag w ≠ .tDouble → getDouble H r name = .error .typeError ∧
        ∀ dflt, getDoubleDef H r name dflt = .error .typeError)) ∧
    (getSeq H r segs = .error .nameNotFound →
      (∀ dflt, getIntDef H r name dflt = .ok dflt) ∧
      (∀ dflt, getStringDef H r name dflt = .ok dflt) ∧
      (∀ dflt, getBoolDef H r name dflt = .ok dflt) ∧
      (∀ dflt, getDoubleDef H r name dflt = .ok dflt)) := by
  constructor
  · intro vs w hseq hlast
    refine ⟨?_, ?_, ?_, ?_⟩
    · intro htag
      constructor
      · rw [getInt, hsplit, hseq]
        simp only [hlast]
        cases w with
        | vInt i => exact absurd rfl htag
        | vBool x => rfl
        | vDouble x => rfl
        | vString x => rfl
        | vSub x => rfl
        | vFile x => rfl
      · intro dflt
        rw [getIntDef, hsplit, hseq]
        simp only [hlast]
        cases w with
        | vInt i => exact absurd rfl htag
        | vBool x => rfl
        | vDouble x => rfl
        | vString x => rfl
        | vSub x => rfl
        | vFile x => rfl
    · intro htag
      constructor
      · rw [getString, hsplit, hseq]
        simp only [hlast]
        cases w with
        | vString s => exact absurd rfl htag
        | vBool x => rfl
        | vDouble x => rfl
        | vInt x => rfl
        | vSub x => rfl
        | vFile x => rfl
      · intro dflt
        rw [getStringDef, hsplit, hseq]
        simp only [hlast]
        cases w with
        | vString s => exact absurd rfl htag
        | vBool x => rfl
        | vDouble x => rfl
        | vInt x => rfl
        | vSub x => rfl
        | vFile x => rfl
    · intro htag
      constructor
      · rw [getBool, hsplit, hseq]
        simp only [hlast]
        cases w with
        | vBool b => exact absurd rfl htag
        | vString x => rfl
        | vDouble x => rfl
        | vInt x => rfl
        | vSub x => rfl
        | vFile x => rfl
      · intro dflt
        rw [getBoolDef, hsplit, hseq]
        simp only [hlast]
        cases w with
        | vBool b => exact absurd rfl htag
        | vString x => rfl
        | vDouble x => rfl
        | vInt x => rfl
        | vSub x => rfl
        | vFile x => rfl
    · intro htag
      constructor
      · rw [getDouble, hsplit, hseq]
        simp only [hlast]
        cases w with
        | vDouble q => exact absurd rfl htag
        | vString x => rfl
        | vBool x => rfl
        | vInt x => rfl
        | vSub x => rfl
        | vFile x => rfl
      · intro dflt
        rw [getDoubleDef, hsplit, hseq]
        simp only [hlast]
        cases w with
        | vDouble q => exact absurd rfl htag
        | vString x => rfl
        | vBool x => rfl
        | vInt x => rfl
        | vSub x => rfl
        | vFile x => rfl
  · intro hseq
    refine ⟨?_, ?_, ?_, ?_⟩
    · intro dflt; rw [getIntDef, hsplit, hseq]
    · intro dflt; rw [getStringDef, hsplit, hseq]
    · intro dflt; rw [getBoolDef, hsplit, hseq]
    · intro dflt; rw [getDoubleDef, hsplit, hseq]

/-- Witness for C6 at a concrete input: doall holds a String, so getInt
and the defaulted getInt fail with TypeError, while a defaulted read of
an absent name returns the default. -/
theorem claim_C6_witness :
    getInt (⟨1, [(0, [("doall", [Value.vString "true"])])]⟩ : Heap) 0 "doall"
      = .error .typeError ∧
    getIntDef (⟨1, [(0, [("doall", [Value.vString "true"])])]⟩ : Heap) 0 "doall" 5
      = .error .typeError ∧
    getIntDef (⟨1, [(0, [("doall", [Value.vString "true"])])]⟩ : Heap) 0 "foo" 5
      = .ok 5 := by
  have h := (claim_C6 (⟨1, [(0, [("doall", [Value.vString "true"])])]⟩ : Heap) 0 "doall"
    ["doall"] (by decide)).1 [Value.vString "true"] (Value.vString "true")
    (by decide) (by decide)
  have h2 := (claim_C6 (⟨1, [(0, [("doall", [Value.vString "true"])])]⟩ : Heap) 0 "foo"
    ["foo"] (by decide)).2 (by decide)
  have h3 := h.1 (by decide)
  exact ⟨h3.1, h3.2 5, h2.1 5⟩

/-- C7: the single-tag invariant.  In a well-tagged Policy every existing
name's value sequence shares one tag; both set and add preserve the
invariant; and a set or add whose value's tag differs from the name's
established tag fails with TypeError, returning no new heap so the
stored sequence is unchanged. -/
theorem claim_C7 (m : WMode) (H : Heap) (r : Nat) (segs : List String) (v : Value)
    (hwt : HeapWT H) :
    (∀ a da nm vs, H.get a = some da → assocFind nm da = some vs →
      ∀ x ∈ vs, ∀ y ∈ vs, Value.tag x = Value.tag y) ∧
    (∀ H' tr f n, writePathT m H r segs v = .ok (H', tr, f, n) → HeapWT H') ∧
    (∀ tr f n d vs w, resolveLastT H r segs = .ok (tr, f, n) →
      H.get f = some d → assocFind n d = some vs → lastVal vs = some w →
      Value.tag w ≠ Value.tag v → writePathT m H r segs v = .error .typeError) := by
  refine ⟨?_, ?_, ?_⟩
  · intro a da nm vs hget hfind x hx y hy
    exact dataWT_of_get hwt hget _ (assocFind_some_mem hfind) x hx y hy
  · intro H' tr f n hok
    exact writePathT_WT hwt hok
  · intro tr f n d vs w hres hget hfind hlast htag
    exact (writePathT_of_resolve hres hget hfind hlast).2 htag

/-- Witness for C7 at a concrete input: the heap holding doall as a
String is well-tagged, stays well-tagged after an add of the same tag,
and an add of an Int to doall fails with TypeError. -/
theorem claim_C7_witness :
    (writePathT .append (⟨1, [(0, [("doall", [Value.vString "true"])])]⟩ : Heap) 0
      ["doall"] (.vInt 3) = .error .typeError) ∧
    HeapWT (⟨1, [(0, [("doall", [Value.vString "true", Value.vString "never"])])]⟩ : Heap) := by
  have h := claim_C7 .append (⟨1, [(0, [("doall", [Value.vString "true"])])]⟩ : Heap) 0
    ["doall"] (.vInt 3) (by decide)
  have h2 := claim_C7 .append (⟨1, [(0, [("doall", [Value.vString "true"])])]⟩ : Heap) 0
    ["doall"] (.vString "never") (by decide)
  refine ⟨?_, ?_⟩
  · exact h.2.2 [] 0 "doall" [("doall", [Value.vString "true"])] [Value.vString "true"]
      (Value.vString "true") (by decide) (by decide) (by decide) (by decide) (by decide)
  · exact h2.2.1 (⟨1, [(0, [("doall", [Value.vString "true", Value.vString "never"])])]⟩ : Heap)
      [] 0 "doall" (by decide)

theorem writePathT_append_walk {m : WMode} {v2 : Value} {n2 : String} :
    ∀ {xs : List String} {H : Heap} {p : Nat} {trA : List (Nat × String)} {sa : Nat},
    walkT H p xs = .ok (trA, sa) →
    writePathT m H p (xs ++ [n2]) v2 =
      (match writePathT m H sa [n2] v2 with
       | .ok (H', tr', f', n') => .ok (H', trA ++ tr', f', n')
       | .error e => .error e) := by
  intro xs
  induction xs with
  | nil =>
    intro H p trA sa h
    rw [walkT_nil] at h
    cases h
    cases hw : writePathT m H p [n2] v2 with
    | error e => exact hw
    | ok R =>
      obtain ⟨H', tr', f', n'⟩ := R
      exact hw
  | cons s rest ih =>
    intro H p trA sa h
    obtain ⟨vs, b, tr', h1, h2, h3, rfl⟩ := walkT_cons_inv h
    obtain ⟨d, hg, hf⟩ := lookupName_some h1
    have hih := ih h3
    cases rest with
    | nil =>
      rw [walkT_nil] at h3
      cases h3
      rw [show (s :: [] : List String) ++ [n2] = s :: n2 :: [] from rfl]
      conv_lhs => rw [writePathT]
      simp only [hg, hf, h2]
      cases hw : writePathT m H sa [n2] v2 with
      | error e => rfl
      | ok R =>
        obtain ⟨H', trr, f', n'⟩ := R
        rfl
    | cons u us =>
      rw [show ((s :: u :: us) ++ [n2]) = s :: ((u :: us) ++ [n2]) from rfl]
      rw [show ((u :: us) ++ [n2]) = u :: (us ++ [n2]) from rfl] at hih ⊢
      conv_lhs => rw [writePathT]
      simp only [hg, hf, h2, hih]
      cases hw : writePathT m H sa [n2] v2 with
      | error e => rfl
      | ok R =>
        obtain ⟨H', trr, f', n'⟩ := R
        rfl

/-- C2: the handle returned by getPolicy aliases the stored sub-policy:
a set through the handle is visible when reading the dotted path through
the parent, and conversely a set through the parent at a path under the
handle's path is visible through the handle. -/
theorem claim_C2 (H : Heap) (p : Nat) (nameA : String) (segsA : List String)
    (trA : List (Nat × String)) (sa : Nat)
    (hwf : H.wf) (hcl : H.closed) (hp : p < H.next)
    (hsplitA : splitName nameA = segsA)
    (hwalk : walkT H p segsA = .ok (trA, sa)) :
    getPolicy H p nameA = .ok sa ∧
    (∀ n v H1 tr1 f1 n1, (sa, n) ∉ trA →
      writePathT .replace H sa [n] v = .ok (H1, tr1, f1, n1) →
      getSeq H1 p (segsA ++ [n]) = .ok [v] ∧
      (∀ nameFull, splitName nameFull = segsA ++ [n] →
        ∀ i, v = .vInt i → getInt H1 p nameFull = .ok i)) ∧
    (∀ n2 v2 H2 tr2 f2 n2', writePathT .replace H p (segsA ++ [n2]) v2 = .ok (H2, tr2, f2, n2') →
      getSeq H2 sa [n2] = .ok [v2]) := by
  refine ⟨?_, ?_, ?_⟩
  · rw [getPolicy, hsplitA, hwalk]
  · intro n v H1 tr1 f1 n1 hnorev hset
    obtain ⟨htr1, hf1, hn1, -⟩ := writePathT_single_inv hset
    subst htr1
    obtain ⟨S, hlk, hlast, hrepl⟩ := writePathT_final hset
    rw [hf1, hn1] at hlk
    have hS : S = [v] := hrepl rfl
    subst hS
    have hbounds := walkT_bounds hcl hwalk hp
    have hframe : ∀ q ∈ trA, lookupName H1 q.1 q.2 = lookupName H q.1 q.2 := by
      intro q hq
      refine writePathT_lookupName_outside hwf hset q.1 q.2 (by simp) ?_ (hbounds.1 q hq)
      intro heq
      rw [hf1, hn1, Prod.mk.eta] at heq
      rw [heq] at hq
      exact hnorev hq
    have hwalk1 := walkT_frame hwalk hframe
    have hres := resolveLastT_of_walkT n hwalk1
    have hseq : getSeq H1 p (segsA ++ [n]) = .ok [v] :=
      getSeq_of_resolve hres hlk (by simp)
    refine ⟨hseq, ?_⟩
    intro nameFull hsplitFull i hv
    subst hv
    rw [getInt, hsplitFull, hseq]
    rfl
  · intro n2 v2 H2 tr2 f2 n2' hset2
    rw [writePathT_append_walk hwalk] at hset2
    cases hw : writePathT .replace H sa [n2] v2 with
    | error e =>
      rw [hw] at hset2
      exact Except.noConfusion hset2
    | ok R =>
      obtain ⟨H1', tr1', f1', n1'⟩ := R
      rw [hw] at hset2
      obtain ⟨htr1, hf1, hn1, -⟩ := writePathT_single_inv hw
      obtain ⟨S, hlk, hlast, hrepl⟩ := writePathT_final hw
      rw [hf1, hn1] at hlk
      have hS : S = [v2] := hrepl rfl
      subst hS
      injection hset2 with hset3
      injection hset3 with hH2 hset4
      subst hH2
      exact getSeq_of_resolve (resolveLastT_single H1' sa n2) hlk (by simp)

/-- Witness for C2 at a concrete input: with a.b already set via the
parent, a set of c through the handle for a is read back as a.c through
the parent, and a set of a.d through the parent is read through the
handle. -/
theorem claim_C2_witness :
    getPolicy (⟨2, [(1, [("b", [Value.vInt 1])]), (0, [("a", [Value.vSub 1])])]⟩ : Heap)
      0 "a" = .ok 1 ∧
    getSeq (⟨2, [(1, [("b", [Value.vInt 1]), ("c", [Value.vInt 2])]),
      (0, [("a", [Value.vSub 1])])]⟩ : Heap) 0 ["a", "c"] = .ok [.vInt 2] ∧
    getInt (⟨2, [(1, [("b", [Value.vInt 1]), ("c", [Value.vInt 2])]),
      (0, [("a", [Value.vSub 1])])]⟩ : Heap) 0 "a.c" = .ok 2 ∧
    getSeq (⟨2, [(1, [("b", [Value.vInt 1]), ("d", [Value.vInt 9])]),
      (0, [("a", [Value.vSub 1])])]⟩ : Heap) 1 ["d"] = .ok [.vInt 9] := by
  have h := claim_C2 (⟨2, [(1, [("b", [Value.vInt 1])]), (0, [("a", [Value.vSub 1])])]⟩ : Heap)
    0 "a" ["a"] [(0, "a")] 1 (by decide) (by decide) (by decide) (by decide) (by decide)
  have hfwd := h.2.1 "c" (.vInt 2)
    (⟨2, [(1, [("b", [Value.vInt 1]), ("c", [Value.vInt 2])]), (0, [("a", [Value.vSub 1])])]⟩ : Heap)
    [] 1 "c" (by decide) (by decide)
  have hcon := h.2.2 "d" (.vInt 9)
    (⟨2, [(1, [("b", [Value.vInt 1]), ("d", [Value.vInt 9])]), (0, [("a", [Value.vSub 1])])]⟩ : Heap)
    [(0, "a")] 1 "d" (by decide)
  exact ⟨h.1, hfwd.1, hfwd.2 "a.c" (by decide) 2 rfl, hcon⟩

/-- C10: set on a dotted path whose intermediate segments do not yet
exist succeeds, materializing each missing segment as a nested
SubPolicy; afterwards the path exists with a single value readable
through the full dotted name, and the walk getPolicy performs on any
intermediate prefix yields a shared handle through which the remaining
path reads the stored value. -/
theorem claim_C10 (H : Heap) (r : Nat) (name : String) (segs : List String)
    (s : String) (rest : List String) (v : Value) (d : PolicyData)
    (hwf : H.wf) (hsplit : splitName name = segs) (hsegs : segs = s :: rest)
    (hget : H.get r = some d) (hmiss : assocFind s d = none) :
    (∃ R, writePathT .replace H r segs v = .ok R) ∧
    (∀ H' tr f n, writePathT .replace H r segs v = .ok (H', tr, f, n) →
      setP H r name v = .ok H' ∧
      existsP H' r name = true ∧
      valueCount H' r name = 1 ∧
      getSeq H' r segs = .ok [v] ∧
      (∀ i, v = .vInt i → getInt H' r name = .ok i) ∧
      (∀ j, j ≤ tr.length →
        walkT H' r (segs.take j) = .ok (tr.take j, ((tr.drop j).map Prod.fst).headD f) ∧
        getSeq H' (((tr.drop j).map Prod.fst).headD f) (segs.drop j) = .ok [v])) := by
  subst hsegs
  have hr : r < H.next := Heap.get_some_lt hwf hget
  -- construct the successful write together with its trace structure
  have hconstruct : ∃ H' tr f n, writePathT .replace H r (s :: rest) v = .ok (H', tr, f, n) ∧
      (tr ++ [(f, n)]).Nodup := by
    cases rest with
    | nil =>
      refine ⟨H.put r (assocSet s [v] d), [], r, s, ?_, by simp⟩
      rw [writePathT]
      simp only [hget, hmiss]
    | cons s' rest' =>
      have hga : ((H.alloc []).1).get r = some d := by
        rw [Heap.get_alloc_ne H [] (Nat.ne_of_lt hr)]
        exact hget
      have hg2 : (((H.alloc []).1).put r (assocSet s [Value.vSub H.next] d)).get H.next
          = some [] := by
        rw [Heap.get_put_ne _ _ (Nat.ne_of_lt hr).symm]
        exact Heap.get_alloc_self H []
      have hwf2 : (((H.alloc []).1).put r (assocSet s [Value.vSub H.next] d)).wf :=
        Heap.wf_put (Heap.wf_alloc hwf []) hga
      obtain ⟨H', tr', f, n, hok, hchain, hhead⟩ :=
        @writePathT_fresh_ok WMode.replace v (s' :: rest') _ _
          (by simp) hwf2 hg2
      refine ⟨H', (r, s) :: tr', f, n, ?_, ?_⟩
      · rw [writePathT]
        simp only [hget, hmiss, show (H.alloc []).2 = H.next from rfl, hok]
      · refine @nodup_of_chain_fst ((r, s) :: tr') f n ?_
        rw [List.map_cons, List.cons_append, List.chain'_cons']
        refine ⟨?_, hchain⟩
        intro y hy
        rw [hhead] at hy
        injection hy with hy
        subst hy
        exact hr
  obtain ⟨H0, tr0, f0, n0, hok0, hnd0⟩ := hconstruct
  constructor
  · exact ⟨(H0, tr0, f0, n0), hok0⟩
  · intro H' tr f n hok
    rw [hok0] at hok
    injection hok with hok1
    injection hok1 with hH hok2
    injection hok2 with htr hok3
    injection hok3 with hf hn
    subst hH htr hf hn
    have hres := writePathT_readback hwf hok0 hnd0
    obtain ⟨S, hlk, hlast, hrepl⟩ := writePathT_final hok0
    have hS : S = [v] := hrepl rfl
    subst hS
    have hseq : getSeq H0 r (s :: rest) = .ok [v] :=
      getSeq_of_resolve hres hlk (by simp)
    obtain ⟨hshape, hwalk0⟩ := walkT_of_resolveLastT hres
    refine ⟨?_, ?_, ?_, hseq, ?_, ?_⟩
    · rw [setP, hsplit, hok0]
    · rw [existsP, hsplit, hseq]
    · rw [valueCount, hsplit, hseq]
      rfl
    · intro i hv
      subst hv
      rw [getInt, hsplit, hseq]
      rfl
    · intro j hj
      have hlen : tr0.length = (tr0.map Prod.snd).length := by simp
      have hjlen : j ≤ (tr0.map Prod.snd).length := by omega
      have htake : (s :: rest).take j = (tr0.map Prod.snd).take j := by
        rw [hshape]
        rw [List.take_append_of_le_length hjlen]
      have hdrop : (s :: rest).drop j = (tr0.map Prod.snd).drop j ++ [n0] := by
        rw [hshape]
        rw [List.drop_append_of_le_length hjlen]
      constructor
      · rw [htake]
        exact walkT_take hwalk0 j
      · rw [hdrop]
        have hwd := walkT_drop hwalk0 j
        have hres2 := resolveLastT_of_walkT n0 hwd
        exact getSeq_of_resolve hres2 hlk (by simp)

/-- Witness for C10 at a concrete input: the hierarchical set of the
Policy_1.cc test, a three-segment dotted path set on an empty Policy,
with the prefix handle reached by the walk reading the rest of the
path. -/
theorem claim_C10_witness :
    setP emptyPolicy 0 "d.s.m" (.vInt 1) = .ok
      (⟨3, [(2, [("m", [Value.vInt 1])]), (1, [("s", [Value.vSub 2])]),
        (0, [("d", [Value.vSub 1])])]⟩ : Heap) ∧
    existsP (⟨3, [(2, [("m", [Value.vInt 1])]), (1, [("s", [Value.vSub 2])]),
      (0, [("d", [Value.vSub 1])])]⟩ : Heap) 0 "d.s.m" = true ∧
    valueCount (⟨3, [(2, [("m", [Value.vInt 1])]), (1, [("s", [Value.vSub 2])]),
      (0, [("d", [Value.vSub 1])])]⟩ : Heap) 0 "d.s.m" = 1 ∧
    getInt (⟨3, [(2, [("m", [Value.vInt 1])]), (1, [("s", [Value.vSub 2])]),
      (0, [("d", [Value.vSub 1])])]⟩ : Heap) 0 "d.s.m" = .ok 1 ∧
    walkT (⟨3, [(2, [("m", [Value.vInt 1])]), (1, [("s", [Value.vSub 2])]),
      (0, [("d", [Value.vSub 1])])]⟩ : Heap) 0 ["d", "s"] = .ok ([(0, "d"), (1, "s")], 2) ∧
    getSeq (⟨3, [(2, [("m", [Value.vInt 1])]), (1, [("s", [Value.vSub 2])]),
      (0, [("d", [Value.vSub 1])])]⟩ : Heap) 2 ["m"] = .ok [.vInt 1] := by
  have h := (claim_C10 emptyPolicy 0 "d.s.m" ["d", "s", "m"] "d" ["s", "m"] (.vInt 1) []
    (by decide) (by decide) (by decide) (by decide) (by decide)).2
    (⟨3, [(2, [("m", [Value.vInt 1])]), (1, [("s", [Value.vSub 2])]),
      (0, [("d", [Value.vSub 1])])]⟩ : Heap) [(0, "d"), (1, "s")] 2 "m" (by decide)
  have hpre := h.2.2.2.2.2 2 (by decide)
  exact ⟨h.1, h.2.1, h.2.2.1, h.2.2.2.2.1 1 rfl, hpre.1, hpre.2⟩

/-- C1: after a deep copy of a Policy, mutating a nested sub-policy
through a handle obtained from the original is not observable through
the deep copy; a shallow copy taken before the mutation does observe it
(it reads exactly what the original reads, and that read ends in the
newly appended value); scalar values are copied by value in both modes,
so a later scalar overwrite on the original is seen by neither copy. -/
theorem claim_C1 (H : Heap) (p : Nat) (segsA : List String) (trA : List (Nat × String))
    (sa : Nat) (n : String) (v : Value) (fuel : Nat)
    (H1 : Heap) (sh : Nat) (H2 : Heap) (dp : Nat)
    (H3 : Heap) (tr3 : List (Nat × String)) (f3 : Nat) (n3 : String)
    (hwf : H.wf) (hcl : H.closed) (hp : p < H.next)
    (hne : segsA ≠ [])
    (hwalk : walkT H p segsA = .ok (trA, sa))
    (hnorev : (sa, n) ∉ trA)
    (hshallow : copyShallow H p = (H1, sh))
    (hdeep : copyDeep fuel H1 p = some (H2, dp))
    (hmut : writePathT .append H2 sa [n] v = .ok (H3, tr3, f3, n3)) :
    getSeq H3 dp (segsA ++ [n]) = getSeq H2 dp (segsA ++ [n]) ∧
    getSeq H3 sh (segsA ++ [n]) = getSeq H3 p (segsA ++ [n]) ∧
    (∃ S, getSeq H3 p (segsA ++ [n]) = .ok S ∧ lastVal S = some v) ∧
    (∀ mname mvs, lookupName H p mname = some mvs → mvs ≠ [] → allNonSub mvs →
      ∀ w H4 t4 f4 n4, writePathT .replace H3 p [mname] w = .ok (H4, t4, f4, n4) →
        getSeq H4 sh [mname] = .ok mvs ∧ getSeq H4 dp [mname] = .ok mvs ∧
        getSeq H4 p [mname] = .ok [w]) := by
  obtain ⟨s0, restA, rfl⟩ : ∃ s0 restA, segsA = s0 :: restA := by
    cases segsA with
    | nil => exact absurd rfl hne
    | cons a b => exact ⟨a, b, rfl⟩
  obtain ⟨vs0, b0, trA', h1, h2, h3, rfl⟩ := walkT_cons_inv hwalk
  obtain ⟨d_p, hgp, hfp⟩ := lookupName_some h1
  have hbounds := walkT_bounds hcl hwalk hp
  have hsalt : sa < H.next := hbounds.2
  -- unpack the shallow copy
  rw [copyShallow] at hshallow
  simp only [hgp] at hshallow
  injection hshallow with hH1 hsh
  subst hsh
  have hwf1 : H1.wf := by rw [← hH1]; exact Heap.wf_alloc hwf d_p
  have hnext1 : H1.next = H.next + 1 := by rw [← hH1]
  have hget1old : ∀ b, b ≠ H.next → H1.get b = H.get b := by
    intro b hb
    rw [← hH1]
    exact Heap.get_alloc_ne H d_p hb
  have hget1sh : H1.get H.next = some d_p := by
    rw [← hH1]
    exact Heap.get_alloc_self H d_p
  -- unpack the deep copy
  obtain ⟨hext, hdplo, hdphi, hroot⟩ := copyDeep_spec fuel H1 p H2 dp hdeep
  have hgp1 : H1.get p = some d_p := by
    rw [hget1old p (Nat.ne_of_lt hp)]
    exact hgp
  obtain ⟨d1, hgdp, hpres⟩ := hroot d_p hgp1
  have hwf2 : H2.wf := heapExt_wf hext hwf1
  have hnext12 : H1.next ≤ H2.next := hext.1
  -- unpack the mutation
  obtain ⟨htr3, hf3, hn3, d_sa, S0, hgsa, hH3eq, -⟩ := writePathT_single_inv hmut
  subst htr3
  obtain ⟨S, hlkS, hlastS, -⟩ := writePathT_final hmut
  rw [hf3, hn3] at hlkS
  have hSne : S ≠ [] := by
    intro hS
    rw [hS] at hlastS
    exact Option.noConfusion hlastS
  -- the deep copy does not see the mutation
  have hagree : ∀ b, H1.next ≤ b → b < H2.next → H3.get b = H2.get b := by
    intro b hblo hbhi
    rw [hH3eq]
    apply Heap.get_put_ne
    omega
  have hrc := heapExt_regionClosed hext hwf1
  have conc1 : getSeq H3 dp (s0 :: restA ++ [n]) = getSeq H2 dp (s0 :: restA ++ [n]) :=
    getSeq_region hagree hrc hdplo hdphi
  -- the walk survives the copies and the mutation
  have hframe : ∀ q ∈ (p, s0) :: trA', lookupName H3 q.1 q.2 = lookupName H q.1 q.2 := by
    intro q hq
    have hqlt : q.1 < H.next := hbounds.1 q hq
    have hqne : (q.1, q.2) ≠ (f3, n3) := by
      intro heq
      rw [hf3, hn3, Prod.mk.eta] at heq
      rw [heq] at hq
      exact hnorev hq
    have step3 : lookupName H3 q.1 q.2 = lookupName H2 q.1 q.2 :=
      writePathT_lookupName_outside hwf2 hmut q.1 q.2 (by simp) hqne (by omega)
    have step2 : lookupName H2 q.1 q.2 = lookupName H1 q.1 q.2 := by
      unfold lookupName
      rw [heapExt_get_old hext hwf1 (by omega)]
    have step1 : lookupName H1 q.1 q.2 = lookupName H q.1 q.2 := by
      unfold lookupName
      rw [hget1old q.1 (Nat.ne_of_lt hqlt)]
    rw [step3, step2, step1]
  have hwalk3 : walkT H3 p (s0 :: restA) = .ok ((p, s0) :: trA', sa) :=
    walkT_frame hwalk hframe
  have hres3 := resolveLastT_of_walkT n hwalk3
  have hseqP : getSeq H3 p (s0 :: restA ++ [n]) = .ok S :=
    getSeq_of_resolve hres3 hlkS hSne
  -- the shallow copy reads through the same shared chain
  obtain ⟨vs0', b0', trA'', h1', h2', h3', heq⟩ := walkT_cons_inv hwalk3
  have hgsh3 : H3.get H.next = some d_p := by
    rw [hH3eq, Heap.get_put_ne _ _ (by omega), heapExt_get_old hext hwf1 (by omega)]
    exact hget1sh
  have hlk_sh : lookupName H3 H.next s0 = some vs0' := by
    have hpp : lookupName H3 p s0 = assocFind s0 d_p := by
      rw [hframe (p, s0) (List.mem_cons_self _ _), lookupName_eq _ _ _ hgp]
    rw [lookupName_eq _ _ _ hgsh3, ← hpp, h1']
  have htrAeq : trA' = trA'' := by
    injection heq with h h'
  subst htrAeq
  have hwalk_sh : walkT H3 H.next (s0 :: restA) = .ok ((H.next, s0) :: trA', sa) :=
    walkT_cons_of hlk_sh h2' h3'
  have hres_sh := resolveLastT_of_walkT n hwalk_sh
  have hseq_sh : getSeq H3 H.next (s0 :: restA ++ [n]) = .ok S :=
    getSeq_of_resolve hres_sh hlkS hSne
  refine ⟨conc1, hseq_sh.trans hseqP.symm, ⟨S, hseqP, hlastS⟩, ?_⟩
  -- scalars are copied by value
  intro mname mvs hmv hmvne hns w H4 t4 f4 n4 hset4
  obtain ⟨ht4, hf4, hn4, d3, S4, hg3p, hH4eq, -⟩ := writePathT_single_inv hset4
  obtain ⟨S4', hlk4, hlast4, hrepl4⟩ := writePathT_final hset4
  rw [hf4, hn4] at hlk4
  have hS4 : S4' = [w] := hrepl4 rfl
  subst hS4
  have hmvfind : assocFind mname d_p = some mvs := by
    rw [← lookupName_eq H p mname hgp]
    exact hmv
  refine ⟨?_, ?_, ?_⟩
  · have hg4sh : lookupName H4 H.next mname = some mvs := by
      rw [hH4eq]
      unfold lookupName
      rw [Heap.get_put_ne _ _ (by omega), hgsh3]
      exact hmvfind
    exact getSeq_of_resolve (resolveLastT_single H4 H.next mname) hg4sh hmvne
  · have hg4dp : lookupName H4 dp mname = some mvs := by
      rw [hH4eq]
      unfold lookupName
      rw [Heap.get_put_ne _ _ (by omega), hH3eq, Heap.get_put_ne _ _ (by omega), hgdp]
      exact hpres mname mvs hmvfind hns
    exact getSeq_of_resolve (resolveLastT_single H4 dp mname) hg4dp hmvne
  · exact getSeq_of_resolve (resolveLastT_single H4 p mname) hlk4 (by simp)

/-- Witness for C1 at a concrete input: a parent with nested sub-policy
a and scalar m; after a shallow copy at address 2 and a deep copy at
address 4, an add of 7 to a.x through the handle for a is seen through
the shallow copy but not through the deep copy, and a later overwrite of
the scalar m on the parent is seen by neither copy. -/
theorem claim_C1_witness :
    getSeq (⟨5, [(4, [("a", [Value.vSub 3]), ("m", [Value.vInt 9])]),
        (3, [("x", [Value.vInt 5])]),
        (2, [("a", [Value.vSub 1]), ("m", [Value.vInt 9])]),
        (0, [("a", [Value.vSub 1]), ("m", [Value.vInt 9])]),
        (1, [("x", [Value.vInt 5, Value.vInt 7])])]⟩ : Heap) 4 ["a", "x"] =
      getSeq (⟨5, [(4, [("a", [Value.vSub 3]), ("m", [Value.vInt 9])]),
        (3, [("x", [Value.vInt 5])]),
        (2, [("a", [Value.vSub 1]), ("m", [Value.vInt 9])]),
        (0, [("a", [Value.vSub 1]), ("m", [Value.vInt 9])]),
        (1, [("x", [Value.vInt 5])])]⟩ : Heap) 4 ["a", "x"] ∧
    getSeq (⟨5, [(4, [("a", [Value.vSub 3]), ("m", [Value.vInt 9])]),
        (3, [("x", [Value.vInt 5])]),
        (2, [("a", [Value.vSub 1]), ("m", [Value.vInt 9])]),
        (0, [("a", [Value.vSub 1]), ("m", [Value.vInt 9])]),
        (1, [("x", [Value.vInt 5, Value.vInt 7])])]⟩ : Heap) 2 ["a", "x"] =
      getSeq (⟨5, [(4, [("a", [Value.vSub 3]), ("m", [Value.vInt 9])]),
        (3, [("x", [Value.vInt 5])]),
        (2, [("a", [Value.vSub 1]), ("m", [Value.vInt 9])]),
        (0, [("a", [Value.vSub 1]), ("m", [Value.vInt 9])]),
        (1, [("x", [Value.vInt 5, Value.vInt 7])])]⟩ : Heap) 0 ["a", "x"] ∧
    getSeq (⟨5, [(4, [("a", [Value.vSub 3]), ("m", [Value.vInt 9])]),
        (3, [("x", [Value.vInt 5])]),
        (2, [("a", [Value.vSub 1]), ("m", [Value.vInt 9])]),
        (0, [("a", [Value.vSub 1]), ("m", [Value.vInt 11])]),
        (1, [("x", [Value.vInt 5, Value.vInt 7])])]⟩ : Heap) 2 ["m"] = .ok [.vInt 9] ∧
    getSeq (⟨5, [(4, [("a", [Value.vSub 3]), ("m", [Value.vInt 9])]),
        (3, [("x", [Value.vInt 5])]),
        (2, [("a", [Value.vSub 1]), ("m", [Value.vInt 9])]),
        (0, [("a", [Value.vSub 1]), ("m", [Value.vInt 11])]),
        (1, [("x", [Value.vInt 5, Value.vInt 7])])]⟩ : Heap) 4 ["m"] = .ok [.vInt 9] ∧
    getSeq (⟨5, [(4, [("a", [Value.vSub 3]), ("m", [Value.vInt 9])]),
        (3, [("x", [Value.vInt 5])]),
        (2, [("a", [Value.vSub 1]), ("m", [Value.vInt 9])]),
        (0, [("a", [Value.vSub 1]), ("m", [Value.vInt 11])]),
        (1, [("x", [Value.vInt 5, Value.vInt 7])])]⟩ : Heap) 0 ["m"] = .ok [.vInt 11] := by
  have h := claim_C1
    (⟨2, [(0, [("a", [Value.vSub 1]), ("m", [Value.vInt 9])]), (1, [("x", [Value.vInt 5])])]⟩ : Heap)
    0 ["a"] [(0, "a")] 1 "x" (.vInt 7) 5
    (⟨3, [(2, [("a", [Value.vSub 1]), ("m", [Value.vInt 9])]),
      (0, [("a", [Value.vSub 1]), ("m", [Value.vInt 9])]), (1, [("x", [Value.vInt 5])])]⟩ : Heap) 2
    (⟨5, [(4, [("a", [Value.vSub 3]), ("m", [Value.vInt 9])]),
      (3, [("x", [Value.vInt 5])]),
      (2, [("a", [Value.vSub 1]), ("m", [Value.vInt 9])]),
      (0, [("a", [Value.vSub 1]), ("m", [Value.vInt 9])]),
      (1, [("x", [Value.vInt 5])])]⟩ : Heap) 4
    (⟨5, [(4, [("a", [Value.vSub 3]), ("m", [Value.vInt 9])]),
      (3, [("x", [Value.vInt 5])]),
      (2, [("a", [Value.vSub 1]), ("m", [Value.vInt 9])]),
      (0, [("a", [Value.vSub 1]), ("m", [Value.vInt 9])]),
      (1, [("x", [Value.vInt 5, Value.vInt 7])])]⟩ : Heap) [] 1 "x"
    (by decide) (by decide) (by decide) (by decide) (by decide) (by decide)
    (by decide) (by decide) (by decide)
  have hm := h.2.2.2 "m" [.vInt 9] (by decide) (by decide) (by decide) (.vInt 11)
    (⟨5, [(4, [("a", [Value.vSub 3]), ("m", [Value.vInt 9])]),
      (3, [("x", [Value.vInt 5])]),
      (2, [("a", [Value.vSub 1]), ("m", [Value.vInt 9])]),
      (0, [("a", [Value.vSub 1]), ("m", [Value.vInt 11])]),
      (1, [("x", [Value.vInt 5, Value.vInt 7])])]⟩ : Heap) [] 0 "m" (by decide)
  exact ⟨h.1, h.2.1, hm.1, hm.2.1, hm.2.2⟩

/-- C8: for every input stream whose leading bytes begin with a comment
line of the form # <?cfg PAF ...?>, with the format token matched
case-insensitively, the PAF factory recognize returns true regardless of
any subsequent content. -/
theorem claim_C8 (w1 w2 w3 tl rest : List Char) (c1 c2 c3 p q g wsp : Char)
    (hw1 : ∀ c ∈ w1, isWsC c = true) (hw2 : ∀ c ∈ w2, isWsC c = true)
    (hw3 : ∀ c ∈ w3, isWsC c = true)
    (hc1 : lowEq c1 'c' = true) (hc2 : lowEq c2 'f' = true) (hc3 : lowEq c3 'g' = true)
    (hp : lowEq p 'p' = true) (hq : lowEq q 'a' = true) (hg : lowEq g 'f' = true)
    (hwsp : isWsC wsp = true)
    (htl : ∀ c ∈ tl, isWsC c = true ∨ isWordC c = true)
    (htlh : tl = [] ∨ ∃ c t, tl = c :: t ∧ isWsC c = true) :
    recognize (String.mk (w1 ++ ('#' :: (w2 ++ ('<' :: '?' :: c1 :: c2 :: c3 :: wsp ::
      (w3 ++ (p :: q :: g :: (tl ++ ('?' :: '>' :: rest))))))))) = true := by
  show recognizeL (w1 ++ ('#' :: (w2 ++ ('<' :: '?' :: c1 :: c2 :: c3 :: wsp ::
      (w3 ++ (p :: q :: g :: (tl ++ ('?' :: '>' :: rest)))))))) = true
  have h1 : skipWsL (w1 ++ ('#' :: (w2 ++ ('<' :: '?' :: c1 :: c2 :: c3 :: wsp ::
      (w3 ++ (p :: q :: g :: (tl ++ ('?' :: '>' :: rest)))))))) =
      '#' :: (w2 ++ ('<' :: '?' :: c1 :: c2 :: c3 :: wsp ::
      (w3 ++ (p :: q :: g :: (tl ++ ('?' :: '>' :: rest)))))) := by
    rw [skipWsL_append_ws hw1, skipWsL_cons_not_ws (by decide)]
  have h2 : skipWsL (w2 ++ ('<' :: '?' :: c1 :: c2 :: c3 :: wsp ::
      (w3 ++ (p :: q :: g :: (tl ++ ('?' :: '>' :: rest)))))) =
      '<' :: '?' :: c1 :: c2 :: c3 :: wsp ::
      (w3 ++ (p :: q :: g :: (tl ++ ('?' :: '>' :: rest)))) := by
    rw [skipWsL_append_ws hw2, skipWsL_cons_not_ws (by decide)]
  have h3 : skipWsL (w3 ++ (p :: q :: g :: (tl ++ ('?' :: '>' :: rest)))) =
      p :: q :: g :: (tl ++ ('?' :: '>' :: rest)) := by
    rw [skipWsL_append_ws hw3, skipWsL_cons_not_ws (lowEq_not_ws hp (by decide))]
  have hafter : afterPAF (tl ++ ('?' :: '>' :: rest)) = true := by
    rcases htlh with rfl | ⟨c, t, rfl, hcw⟩
    · rw [List.nil_append, afterPAF]
      simp [show isWsC '?' = false from by decide]
    · rw [List.cons_append, afterPAF, if_pos hcw]
      exact pafTail_run (fun x hx => htl x (List.mem_cons_of_mem _ hx))
  have hm : matchContentId (w1 ++ ('#' :: (w2 ++ ('<' :: '?' :: c1 :: c2 :: c3 :: wsp ::
      (w3 ++ (p :: q :: g :: (tl ++ ('?' :: '>' :: rest)))))))) = true := by
    simp only [matchContentId, h1, h2, h3, hc1, hc2, hc3, hwsp, hp, hq, hg, hafter,
      Bool.true_and, Bool.and_true]
  rw [recognizeL, regexSearchML, hm, Bool.true_or, Bool.true_or]

/-- Witness for C8 at a concrete stream: the leading comment line
# <?cfg PAF ?> followed by further content is recognized. -/
theorem claim_C8_witness :
    recognize (String.mk ['#', ' ', '<', '?', 'c', 'f', 'g', ' ', 'P', 'A', 'F',
      ' ', '?', '>', '\n', 'a']) = true :=
  claim_C8 [] [' '] [] [' '] ['\n', 'a'] 'c' 'f' 'g' 'P' 'A' 'F' ' '
    (by decide) (by decide) (by decide) (by decide) (by decide) (by decide)
    (by decide) (by decide) (by decide) (by decide) (by decide)
    (Or.inr ⟨' ', [], rfl, by decide⟩)

/-- C9 counterexample: the stream "=\nfoo" contains no content
declaration and its first non-comment, non-blank line starts with the
character = rather than a word character, yet recognize returns true,
because the line anchor of LEADER_PATTERN also matches at the second
line, which starts with a word character. -/
theorem claim_C9_counterexample :
    regexSearchML matchContentId ['=', '\n', 'f', 'o', 'o'] = false ∧
    recognizeL ['=', '\n', 'f', 'o', 'o'] = true ∧
    specFirstLineWord ['=', '\n', 'f', 'o', 'o'] = false := by
  decide

/-- C9 (amended): for every input stream containing no explicit
content-type declaration, recognize returns true exactly when SOME line
of the leading bytes, comments included, starts with a word character
after optional whitespace that may run across subsequent line breaks;
the heuristic is not restricted to the first non-comment, non-blank
line. -/
theorem claim_C9 (s : List Char)
    (hdecl : regexSearchML matchContentId s = false) :
    recognizeL s = specAnyLineWord s := by
  rw [recognizeL, hdecl, Bool.false_or, regexSearchML_eq_any, specAnyLineWord]
  exact any_ext _ _ _ (fun t => rfl)

/-- Witness for C9 at a concrete input: the one-character stream a holds
no declaration, and recognize agrees with the any-line heuristic on
it. -/
theorem claim_C9_witness :
    regexSearchML matchContentId ['a'] = false ∧
    recognizeL ['a'] = specAnyLineWord ['a'] :=
  ⟨by decide, claim_C9 ['a'] (by decide)⟩
